import Mathlib

/-!
# Verification of the schema-visualization core (schema parser, layout engine, path router)

Shallow embedding of the repository's schema-dependency graph extraction
(`frontend/parseSchema.js`) and the geometric layout / path-routing module
(`getInitialTableCoords`, `getUpdatedTableCoords`, `calculateLinkCoords`,
`calculateLinkPath`).

Modelling conventions:
* JS string-keyed objects are modelled as insertion-ordered association lists
  (`Obj α`): assignment to an existing key replaces the value in place, a fresh
  key is appended at the end, which matches JS enumeration order for the
  non-integer-like keys (field/table ids) used by this code.
* JS numbers are modelled as exact rationals (`ℚ`); the arithmetic performed by
  the geometry code (additions, multiplications, division by 600) is exact on
  the inputs of interest, so no floating-point rounding is modelled.
* Fallible code (a `throw`, or a property access that would fault on a missing
  object entry) is modelled with `Except String`.
-/

namespace BaseSchema

/-! ## JS object model -/

/-- A JS string-keyed object, as an insertion-ordered association list. -/
abbrev Obj (α : Type) := List (String × α)

/-- Property read `obj[key]`: the value at the first (unique) matching key. -/
def objGet {α : Type} : Obj α → String → Option α
  | [], _ => none
  | (k', v) :: t, k => if k' = k then some v else objGet t k

/-- Property write `obj[key] = v`: replace in place if the key exists,
otherwise append (JS insertion-order semantics). -/
def objSet {α : Type} : Obj α → String → α → Obj α
  | [], k, v => [(k, v)]
  | (k', v') :: t, k, v => if k' = k then (k, v) :: t else (k', v') :: objSet t k v

/-- `Object.prototype.hasOwnProperty.call(obj, key)`. -/
def objHas {α : Type} (m : Obj α) (k : String) : Bool := (objGet m k).isSome

/-! ## Data model (from `parseSchema.js` and `constants.js`) -/

/-- The field types that the parser's `switch` distinguishes; every other
member of the host's `FieldType` enumeration falls into the `default` branch
and is collapsed into `other`. -/
inductive FieldType where
  | multipleRecordLinks
  | formula
  | count
  | multipleLookupValues
  | rollup
  | other
deriving DecidableEq, Repr

/-- The members of a field's `options` payload that `parseSchema` reads.
JS `undefined` and the empty string are both falsy, so an absent
`inverseLinkFieldId` is modelled as `""`.  `isValid` models the
`options.isValid === false` check: only a literal `false` suppresses links. -/
structure FieldOptions where
  isValid : Bool := true
  inverseLinkFieldId : String := ""
  linkedTableId : String := ""
  referencedFieldIds : List String := []
  recordLinkFieldId : String := ""
  fieldIdInLinkedTable : String := ""
deriving DecidableEq, Repr

structure Field where
  id : String
  name : String := ""
  type : FieldType := .other
  options : FieldOptions := {}
deriving DecidableEq, Repr

structure Table where
  id : String
  name : String := ""
  fields : List Field := []
deriving DecidableEq, Repr

/-- The host snapshot: an ordered enumeration of tables. -/
structure Base where
  tables : List Table
deriving DecidableEq, Repr

/-- `table.getFieldByIdIfExists(fieldId)`. -/
def Table.getFieldByIdIfExists (t : Table) (fieldId : String) : Option Field :=
  t.fields.find? (fun f => f.id == fieldId)

/-- `FIELD_LABELS_BY_TYPE` from `constants.js`, restricted to the field types
our `FieldType` distinguishes; the label of a collapsed (`other`) type is not
observable by any property verified here, so it is modelled as `none`. -/
def FIELD_LABELS_BY_TYPE : FieldType → Option String
  | .multipleRecordLinks => some "Linked records field"
  | .formula => some "Formula field"
  | .count => some "Count field"
  | .multipleLookupValues => some "Lookup field"
  | .rollup => some "Rollup field"
  | .other => none

/-- `LINK_LABELS_BY_TYPE` from `constants.js` (a lookup that is `undefined`,
i.e. `none`, outside the five dependency-bearing types). -/
def LINK_LABELS_BY_TYPE : FieldType → Option String
  | .multipleRecordLinks => some "Linked record"
  | .formula => some "Formula dependency"
  | .rollup => some "Rollup dependency"
  | .count => some "Count dependency"
  | .multipleLookupValues => some "Lookup dependency"
  | .other => none

structure Node where
  id : String
  name : String
  type : String
  tableName : String
  tableId : String
  tooltipLabel : Option String
deriving DecidableEq, Repr

structure Link where
  id : String
  sourceId : String
  sourceTableId : String
  targetId : String
  targetTableId : String
  type : FieldType
  tooltipLabel : Option String
deriving DecidableEq, Repr

structure TableConfig where
  tableNode : Node
  fieldNodes : List Node
deriving DecidableEq, Repr

/-- `createLinkId(source, target)`, the template string `source_target`. -/
def createLinkId (source target : String) : String := source ++ "_" ++ target

/-! ## `pushToOrInitializeArray`

The helper is generic over whatever JS value sits in the object; for the claim
about its error behaviour we model a JS value as either an array or a
non-array value carrying only its truthiness (every array, including `[]`, is
truthy in JS). -/

inductive JsVal (α : Type) where
  | arr (elems : List α)
  | nonArr (truthy : Bool)
deriving DecidableEq, Repr

/-- `pushToOrInitializeArray(obj, key, value)`:
`if (!obj[key]) obj[key] = []; else if (!Array.isArray(obj[key])) throw ...;
obj[key].push(value)`.  An absent entry and a falsy entry both take the
initialization branch; only a truthy non-array reaches the `throw`. -/
def pushToOrInitializeArray {α : Type} (obj : Obj (JsVal α)) (key : String)
    (value : α) : Except String (Obj (JsVal α)) :=
  match objGet obj key with
  | none => .ok (objSet obj key (.arr [value]))
  | some (.nonArr truthy) =>
      if truthy then
        .error ("Expected an array at " ++ key ++ ", but found a non-array value")
      else
        .ok (objSet obj key (.arr [value]))
  | some (.arr elems) => .ok (objSet obj key (.arr (elems ++ [value])))

/-- `pushToOrInitializeArray` as it is used inside `parseSchema`: there the
accumulator's entries are created exclusively by this helper, so every present
entry is an array (always truthy) and the `throw` branch is unreachable; the
value type is specialized accordingly. -/
def pushDependentLink (obj : Obj (List Link)) (key : String) (value : Link) :
    Obj (List Link) :=
  match objGet obj key with
  | none => objSet obj key [value]
  | some elems => objSet obj key (elems ++ [value])

/-! ## `parseSchema` -/

/-- The two structures that the per-field `switch` in `parseSchema` reads and
writes (`linksById` and `dependentLinksByNodeId`); the node and table-config
maps are threaded separately because the `switch` never touches them. -/
structure ParseAcc where
  linksById : Obj Link
  dependentLinksByNodeId : Obj (List Link)
deriving DecidableEq, Repr

/-- Body of the `referencedFieldIds.forEach` loop of the `FORMULA` case; the
`for ... of referencedFieldIds` loop of the `ROLLUP` case is this same code. -/
def addReferencedFieldLink (table : Table) (field : Field) (acc : ParseAcc)
    (dependentFieldId : String) : ParseAcc :=
  let link : Link := {
    id := createLinkId field.id dependentFieldId
    sourceId := field.id
    sourceTableId := table.id
    targetId := dependentFieldId
    targetTableId := table.id
    type := field.type
    tooltipLabel := LINK_LABELS_BY_TYPE field.type }
  { linksById := objSet acc.linksById link.id link
    dependentLinksByNodeId :=
      pushDependentLink
        (pushDependentLink acc.dependentLinksByNodeId field.id link)
        dependentFieldId link }

/-- The `MULTIPLE_LOOKUP_VALUES` case body: a link to the local linked-record
field, then (when that field still exists) a link to the looked-up field in
the foreign table.  The tail of the `ROLLUP` case is this same code. -/
def addRecordLinkLinks (table : Table) (field : Field) (acc : ParseAcc) : ParseAcc :=
  let recordLinkFieldId := field.options.recordLinkFieldId
  let fieldIdInLinkedTable := field.options.fieldIdInLinkedTable
  let link : Link := {
    id := createLinkId field.id recordLinkFieldId
    sourceId := field.id
    sourceTableId := table.id
    targetId := recordLinkFieldId
    targetTableId := table.id
    type := field.type
    tooltipLabel := LINK_LABELS_BY_TYPE field.type }
  let acc : ParseAcc := {
    linksById := objSet acc.linksById link.id link
    dependentLinksByNodeId :=
      pushDependentLink
        (pushDependentLink acc.dependentLinksByNodeId field.id link)
        recordLinkFieldId link }
  match table.getFieldByIdIfExists recordLinkFieldId with
  | none => acc
  | some recordLinkField =>
      let foreignLink : Link := {
        id := createLinkId field.id fieldIdInLinkedTable
        sourceId := field.id
        sourceTableId := table.id
        targetId := fieldIdInLinkedTable
        targetTableId := recordLinkField.options.linkedTableId
        type := field.type
        tooltipLabel := LINK_LABELS_BY_TYPE field.type }
      { linksById := objSet acc.linksById foreignLink.id foreignLink
        dependentLinksByNodeId :=
          pushDependentLink
            (pushDependentLink acc.dependentLinksByNodeId field.id foreignLink)
            fieldIdInLinkedTable foreignLink }

/-- The `switch (field.type)` of `parseSchema`, acting on `linksById` and
`dependentLinksByNodeId`.  Reached only for fields that passed the
`options.isValid === false` guard. -/
def processFieldLinks (table : Table) (field : Field) (acc : ParseAcc) : ParseAcc :=
  match field.type with
  | .multipleRecordLinks =>
    let inverseLinkFieldId := field.options.inverseLinkFieldId
    let linkedTableId := field.options.linkedTableId
    if inverseLinkFieldId ≠ "" then
      -- foreign table linked records: reuse the mirror's link when present
      let inverseLinkId := createLinkId inverseLinkFieldId field.id
      match objGet acc.linksById inverseLinkId with
      | some inverseLinkOrNull =>
          { acc with dependentLinksByNodeId :=
              pushDependentLink acc.dependentLinksByNodeId field.id inverseLinkOrNull }
      | none =>
          let link : Link := {
            id := createLinkId field.id inverseLinkFieldId
            sourceId := field.id
            sourceTableId := table.id
            targetId := inverseLinkFieldId
            targetTableId := linkedTableId
            type := field.type
            tooltipLabel := LINK_LABELS_BY_TYPE field.type }
          { linksById := objSet acc.linksById link.id link
            dependentLinksByNodeId :=
              pushDependentLink acc.dependentLinksByNodeId field.id link }
    else
      -- self-linking linked records: draw a link to the table header itself
      let link : Link := {
        id := createLinkId field.id linkedTableId
        sourceId := field.id
        sourceTableId := table.id
        targetId := linkedTableId
        targetTableId := linkedTableId
        type := field.type
        tooltipLabel := LINK_LABELS_BY_TYPE field.type }
      { linksById := objSet acc.linksById link.id link
        dependentLinksByNodeId :=
          pushDependentLink acc.dependentLinksByNodeId field.id link }
  | .formula =>
      field.options.referencedFieldIds.foldl (addReferencedFieldLink table field) acc
  | .count =>
      let recordLinkFieldId := field.options.recordLinkFieldId
      let link : Link := {
        id := createLinkId field.id recordLinkFieldId
        sourceId := field.id
        sourceTableId := table.id
        targetId := recordLinkFieldId
        targetTableId := table.id
        type := field.type
        tooltipLabel := LINK_LABELS_BY_TYPE field.type }
      { linksById := objSet acc.linksById link.id link
        dependentLinksByNodeId :=
          pushDependentLink
            (pushDependentLink acc.dependentLinksByNodeId field.id link)
            recordLinkFieldId link }
  | .multipleLookupValues => addRecordLinkLinks table field acc
  | .rollup =>
      addRecordLinkLinks table field
        (field.options.referencedFieldIds.foldl (addReferencedFieldLink table field) acc)
  | .other => acc

/-- The full mutable state of `parseSchema`. -/
structure ParseState where
  linksById : Obj Link
  nodesById : Obj Node
  tableConfigsByTableId : Obj TableConfig
  dependentLinksByNodeId : Obj (List Link)
deriving DecidableEq, Repr

/-- Projection onto the two structures the per-field `switch` touches. -/
def ParseState.acc (st : ParseState) : ParseAcc :=
  ⟨st.linksById, st.dependentLinksByNodeId⟩

/-- Body of the `table.fields.forEach` loop: emit the field node, then (unless
`options.isValid === false`) run the type `switch`. -/
def processField (table : Table) (s : ParseState × List Node) (field : Field) :
    ParseState × List Node :=
  let st := s.1
  let fieldNode : Node := {
    id := field.id
    name := field.name
    type := "field"
    tableName := table.name
    tableId := table.id
    tooltipLabel := FIELD_LABELS_BY_TYPE field.type }
  let fieldNodes := s.2 ++ [fieldNode]
  let st : ParseState := { st with nodesById := objSet st.nodesById fieldNode.id fieldNode }
  if field.options.isValid = false then
    (st, fieldNodes)
  else
    let acc := processFieldLinks table field st.acc
    ({ st with
        linksById := acc.linksById
        dependentLinksByNodeId := acc.dependentLinksByNodeId },
      fieldNodes)

/-- Body of the first `base.tables.forEach` loop: process every field, then
emit the table node and the table config. -/
def processTable (st : ParseState) (table : Table) : ParseState :=
  let s := table.fields.foldl (processField table) (st, [])
  let st := s.1
  let fieldNodes := s.2
  let tableNode : Node := {
    id := table.id
    name := table.name
    type := "table"
    tableName := table.name
    tableId := table.id
    tooltipLabel := some "Table" }
  { st with
      nodesById := objSet st.nodesById tableNode.id tableNode
      tableConfigsByTableId :=
        objSet st.tableConfigsByTableId table.id ⟨tableNode, fieldNodes⟩ }

/-- The first pass of `parseSchema` over all tables. -/
def parseTables (tables : List Table) : ParseState :=
  tables.foldl processTable ⟨[], [], [], []⟩

/-- The defensive filtering pass: keep only links whose `targetTableId` and
`targetId` are keys of `nodesById` (the source rebuilds `newLinksById` from
`Object.entries(linksById)` in order, which is exactly a filter). -/
def filterLinks (linksById : Obj Link) (nodesById : Obj Node) : Obj Link :=
  linksById.filter (fun p => objHas nodesById p.2.targetTableId && objHas nodesById p.2.targetId)

/-- The second `base.tables.forEach` pass: the per-table aggregate entry of the
reverse index is the concatenation, in field order, of its fields' entries
(`result.concat(links)` when the entry exists — an existing entry is always an
array here, and an empty array concatenates to `result` just as the `:
result` branch does for a missing one). -/
def aggregateTableDeps (tables : List Table) (deps : Obj (List Link)) : Obj (List Link) :=
  tables.foldl (fun deps table =>
    let dependentLinks := table.fields.foldl (fun result field =>
      match objGet deps field.id with
      | some links => result ++ links
      | none => result) []
    objSet deps table.id dependentLinks) deps

/-- `parseSchema(base)`. -/
def parseSchema (base : Base) : ParseState :=
  let st := parseTables base.tables
  let linksById := filterLinks st.linksById st.nodesById
  let dependentLinksByNodeId := aggregateTableDeps base.tables st.dependentLinksByNodeId
  { st with
      linksById := linksById
      dependentLinksByNodeId := dependentLinksByNodeId }

/-! ## Constants (`constants.js`) -/

def TABLE_GUTTER_SIZE : ℚ := 50
def ROW_HEIGHT : ℚ := 32
def ROW_WIDTH : ℚ := 180
def TABLE_BORDER_WIDTH : ℚ := 2

/-! ## Layout engine (`getInitialTableCoords`, `getUpdatedTableCoords`) -/

structure Coords where
  x : ℚ
  y : ℚ
deriving DecidableEq, Repr

/-- `Math.ceil(Math.sqrt(n))` for a natural `n`, computed exactly. -/
def ceilSqrt (n : ℕ) : ℕ :=
  if Nat.sqrt n * Nat.sqrt n = n then Nat.sqrt n else Nat.sqrt n + 1

/-- The loop of `getShortestColumn`, tracking `currentLowest` (initially the
JS `null`) and `currentLowestIndex`; a column of height exactly `0` returns
its index immediately. -/
def getShortestColumnGo :
    List ℚ → ℕ → Option ℚ → ℕ → ℕ
  | [], _, _, currentLowestIndex => currentLowestIndex
  | columnHeight :: rest, index, currentLowest, currentLowestIndex =>
    if columnHeight = 0 then index
    else
      match currentLowest with
      | none => getShortestColumnGo rest (index + 1) (some columnHeight) index
      | some lowest =>
          if columnHeight < lowest then
            getShortestColumnGo rest (index + 1) (some columnHeight) index
          else
            getShortestColumnGo rest (index + 1) (some lowest) currentLowestIndex

/-- `getShortestColumn` of `getInitialTableCoords`. -/
def getShortestColumn (columnHeights : List ℚ) : ℕ :=
  getShortestColumnGo columnHeights 0 none 0

/-- One iteration of the `for ... of Object.entries(tableConfigsByTableId)`
placement loop: read the shortest column, place the table there, then bump
that column's height by the table's contribution. -/
def placeTableStep (s : List ℚ × Obj Coords) (p : String × TableConfig) :
    List ℚ × Obj Coords :=
  let columnHeights := s.1
  let numRows := 1 + p.2.fieldNodes.length
  let columnIndex := getShortestColumn columnHeights
  let y := columnHeights.getD columnIndex 0
  let x := (columnIndex : ℚ) * (ROW_WIDTH + TABLE_GUTTER_SIZE)
  let dy := (numRows : ℚ) * ROW_HEIGHT + TABLE_GUTTER_SIZE
  (columnHeights.set columnIndex (y + dy), objSet s.2 p.1 ⟨x, y⟩)

/-- `getInitialTableCoords(tableConfigsByTableId)`. -/
def getInitialTableCoords (tableConfigsByTableId : Obj TableConfig) : Obj Coords :=
  let numColumns := ceilSqrt tableConfigsByTableId.length
  (tableConfigsByTableId.foldl placeTableStep (List.replicate numColumns 0, [])).2

/-- The object spread `{...a, ...b}`: entries of `a` in order, overridden or
extended by the entries of `b`. -/
def spreadObj {α : Type} (a b : Obj α) : Obj α :=
  b.foldl (fun m p => objSet m p.1 p.2) a

/-- Body of the `newTableIds.reduce` of `getUpdatedTableCoords`: place the
next new table in the fresh right-hand column at the running vertical offset,
then advance the offset by the table's height contribution. -/
def newTableCoordsStep (newTableConfigs : Obj TableConfig) (rightMost : ℚ)
    (s : ℚ × Obj Coords) (currentTableId : String) : ℚ × Obj Coords :=
  let x := rightMost + ROW_WIDTH + TABLE_GUTTER_SIZE
  let y := s.1
  -- `newTableConfigs[currentTableId]` is always present (the id was drawn
  -- from this object's keys); the `0` default is never taken.
  let fieldCount : ℚ :=
    match objGet newTableConfigs currentTableId with
    | some cfg => (cfg.fieldNodes.length : ℚ)
    | none => 0
  (s.1 + ((fieldCount + 1) * ROW_HEIGHT + TABLE_GUTTER_SIZE),
    objSet s.2 currentTableId ⟨x, y⟩)

/-- `getUpdatedTableCoords(newTableConfigs, oldTableCoords)`. -/
def getUpdatedTableCoords (newTableConfigs : Obj TableConfig)
    (oldTableCoords : Obj Coords) : Obj Coords :=
  -- `_.difference(Object.keys(newTableConfigs), Object.keys(oldTableCoords))`
  let newTableIds := (newTableConfigs.map Prod.fst).filter
    (fun k => !((oldTableCoords.map Prod.fst).contains k))
  if newTableIds = [] then oldTableCoords
  else
    let rightMostTablePosition := oldTableCoords.foldl (fun acc p =>
      match acc with
      | none => some p.2.x
      | some r => if p.2.x > r then some p.2.x else some r) (none : Option ℚ)
    let topMostTablePosition := oldTableCoords.foldl (fun acc p =>
      match acc with
      | none => some p.2.y
      | some t => if p.2.y < t then some p.2.y else some t) (none : Option ℚ)
    -- When `oldTableCoords` is empty JS leaves both positions `undefined` and
    -- the arithmetic below yields NaN coordinates; ℚ has no NaN, so that
    -- (unreached-by-any-claim) corner is modelled by defaulting to 0.
    let rightMost := rightMostTablePosition.getD 0
    let topMost := topMostTablePosition.getD 0
    let final := newTableIds.foldl (newTableCoordsStep newTableConfigs rightMost)
      (topMost, ([] : Obj Coords))
    spreadObj oldTableCoords final.2

/-! ## Path router (`calculateLinkCoords`, `calculateLinkPath`) -/

structure LinkCoords where
  sourceCoords : Coords
  targetCoords : Coords
  useDirectPath : Bool
deriving DecidableEq, Repr

/-- Lift an `Option` into the router's error monad (a missing map entry would
fault in JS; the two field-index misses `throw` explicitly in the source). -/
def fromOption {α : Type} (o : Option α) (msg : String) : Except String α :=
  match o with
  | some a => .ok a
  | none => .error msg

/-- The classification tail of `calculateLinkCoords`: the three-way `if` over
the relative horizontal positions of the two resolved node coordinates,
yielding edge choices and the `useDirectPath` flag. -/
def classifyLinkCoords (sourceNodeCoords targetNodeCoords : Coords) : LinkCoords :=
  if sourceNodeCoords.x - targetNodeCoords.x > ROW_WIDTH then
    -- source row completely right of target row: left edge of source,
    -- right edge of target
    { sourceCoords := ⟨sourceNodeCoords.x, sourceNodeCoords.y⟩
      targetCoords := ⟨targetNodeCoords.x + ROW_WIDTH, targetNodeCoords.y⟩
      useDirectPath := true }
  else if targetNodeCoords.x - sourceNodeCoords.x > ROW_WIDTH then
    -- source row completely left of target row: right edge of source,
    -- left edge of target
    { sourceCoords := ⟨sourceNodeCoords.x + ROW_WIDTH, sourceNodeCoords.y⟩
      targetCoords := ⟨targetNodeCoords.x, targetNodeCoords.y⟩
      useDirectPath := true }
  else
    -- overlapping horizontally: right edge of both, not a direct path
    { sourceCoords := ⟨sourceNodeCoords.x + ROW_WIDTH, sourceNodeCoords.y⟩
      targetCoords := ⟨targetNodeCoords.x + ROW_WIDTH, targetNodeCoords.y⟩
      useDirectPath := false }

/-- `calculateLinkCoords(link, tableCoordsByTableId, tableConfigsByTableId)`. -/
def calculateLinkCoords (link : Link) (tableCoordsByTableId : Obj Coords)
    (tableConfigsByTableId : Obj TableConfig) : Except String LinkCoords := do
  -- Source is always a field row (never a table header)
  let sourceTableCoords ← fromOption (objGet tableCoordsByTableId link.sourceTableId)
    ("missing coordinates for table " ++ link.sourceTableId)
  let sourceTableConfig ← fromOption (objGet tableConfigsByTableId link.sourceTableId)
    ("missing config for table " ++ link.sourceTableId)
  let sourceFieldIndex ← fromOption
    (sourceTableConfig.fieldNodes.findIdx? (fun n => n.id == link.sourceId))
    ("Could not find field " ++ link.sourceId ++ " in table " ++ link.sourceTableId)
  let sourceYOffset := ROW_HEIGHT + (sourceFieldIndex : ℚ) * ROW_HEIGHT
  let sourceNodeCoords : Coords :=
    ⟨sourceTableCoords.x + TABLE_BORDER_WIDTH,
      sourceTableCoords.y + sourceYOffset + TABLE_BORDER_WIDTH + ROW_HEIGHT / 2⟩
  -- Target can be a table header if the link is a self-linking linked record
  let targetTableCoords ← fromOption (objGet tableCoordsByTableId link.targetTableId)
    ("missing coordinates for table " ++ link.targetTableId)
  let targetTableConfig ← fromOption (objGet tableConfigsByTableId link.targetTableId)
    ("missing config for table " ++ link.targetTableId)
  let targetYOffset ←
    if link.targetId = link.targetTableId then
      pure (0 : ℚ)
    else do
      let targetFieldIndex ← fromOption
        (targetTableConfig.fieldNodes.findIdx? (fun n => n.id == link.targetId))
        ("Could not find field " ++ link.targetId ++ " in table " ++ link.targetTableId)
      pure (ROW_HEIGHT + (targetFieldIndex : ℚ) * ROW_HEIGHT)
  let targetNodeCoords : Coords :=
    ⟨targetTableCoords.x + TABLE_BORDER_WIDTH,
      targetTableCoords.y + targetYOffset + TABLE_BORDER_WIDTH + ROW_HEIGHT / 2⟩
  return classifyLinkCoords sourceNodeCoords targetNodeCoords

/-- The cubic bezier that `calculateLinkPath` emits as the SVG string
`M start C control1 control2 endPoint`; we model the path by its four
defining points rather than by the formatted string. -/
structure BezierPath where
  start : Coords
  control1 : Coords
  control2 : Coords
  endPoint : Coords
deriving DecidableEq, Repr

/-- `calculateLinkPath({sourceCoords, targetCoords, useDirectPath})`. -/
def calculateLinkPath (lc : LinkCoords) : BezierPath :=
  let sourceCoords := lc.sourceCoords
  let targetCoords := lc.targetCoords
  if lc.useDirectPath then
    -- scaling: yDelta [0, 300+] maps to xScale [0.5, 1.0]
    let xScaleFactor : ℚ := 1/2 + min |sourceCoords.y - targetCoords.y| 300 / 600
    let leftMostX := if sourceCoords.x < targetCoords.x then sourceCoords.x else targetCoords.x
    let offsetFromOpposite := |sourceCoords.x - targetCoords.x| * (1 - xScaleFactor)
    { start := sourceCoords
      control1 :=
        ⟨if targetCoords.x = leftMostX then targetCoords.x + offsetFromOpposite
          else targetCoords.x - offsetFromOpposite,
          sourceCoords.y⟩
      control2 :=
        ⟨if sourceCoords.x = leftMostX then sourceCoords.x + offsetFromOpposite
          else sourceCoords.x - offsetFromOpposite,
          targetCoords.y⟩
      endPoint := targetCoords }
  else
    -- indirect: control points 40px right of whichever point is further right
    let rightMostX := if sourceCoords.x > targetCoords.x then sourceCoords.x else targetCoords.x
    { start := sourceCoords
      control1 := ⟨rightMostX + 40, sourceCoords.y⟩
      control2 := ⟨rightMostX + 40, targetCoords.y⟩
      endPoint := targetCoords }

instance {ε α : Type} [DecidableEq ε] [DecidableEq α] : DecidableEq (Except ε α) :=
  fun a b =>
    match a, b with
    | .ok x, .ok y =>
        if h : x = y then isTrue (by rw [h]) else isFalse (by simp [h])
    | .error e, .error e' =>
        if h : e = e' then isTrue (by rw [h]) else isFalse (by simp [h])
    | .ok _, .error _ => isFalse (by simp)
    | .error _, .ok _ => isFalse (by simp)

/-! ## Derived definitions used in theorem statements -/

/-- All `(table, field)` pairs of a snapshot, in processing order. -/
def fieldPairs (tables : List Table) : List (Table × Field) :=
  tables.flatMap (fun t => t.fields.map (fun f => (t, f)))

/-- The effect of one field on `(linksById, dependentLinksByNodeId)`:
the `options.isValid === false` guard followed by the type `switch`. -/
def fieldStep (acc : ParseAcc) (p : Table × Field) : ParseAcc :=
  if p.2.options.isValid = false then acc else processFieldLinks p.1 p.2 acc

/-- The reverse-index entry of a node, read as a (possibly empty) list. -/
def getL (deps : Obj (List Link)) (k : String) : List Link :=
  (objGet deps k).getD []

/-- Every table id followed by every field id of a snapshot. -/
def allIds (tables : List Table) : List String :=
  tables.map Table.id ++ (fieldPairs tables).map (fun p => p.2.id)

/-- Well-formedness of a link map: keys are distinct and every link is stored
under its own id (this is how `parseSchema` uses `linksById`, so no two links
in it can share an id). -/
def linkMapWF (m : Obj Link) : Prop :=
  (m.map Prod.fst).Nodup ∧ ∀ p ∈ m, p.2.id = p.1

/-- A table's height contribution in the columnar layout:
`(1 + field count) * ROW_HEIGHT + TABLE_GUTTER_SIZE`. -/
def tableHeightContribution (cfg : TableConfig) : ℚ :=
  ((1 + cfg.fieldNodes.length : ℕ) : ℚ) * ROW_HEIGHT + TABLE_GUTTER_SIZE

/-- Total height contributed to the column at horizontal position `xcol` by a
list of placed tables (each paired with its config). -/
def columnLoad (placed : List ((String × Coords) × (String × TableConfig))) (xcol : ℚ) : ℚ :=
  ((placed.filter (fun q => q.1.2.x = xcol)).map
    (fun q => tableHeightContribution q.2.2)).sum

/-- Invariant of the placement loop of `getInitialTableCoords` with `k`
columns, after the entries `dcfgs` have been processed with loop state `s`
(`s.1` the running column heights, `s.2` the coordinates built so far):
coordinates align with the processed configs; every x is a column position
`j * (ROW_WIDTH + TABLE_GUTTER_SIZE)` with `j < k`; each column height is the
total load of that column; the columns filled so far are exactly the first
`min dcfgs.length k` (a column is at height 0 iff it has received no table);
and every placed table's y is the load its column had accumulated before it
was placed. -/
structure LayoutInv (k : ℕ) (dcfgs : List (String × TableConfig))
    (s : List ℚ × Obj Coords) : Prop where
  len : s.1.length = k
  keys : s.2.map Prod.fst = dcfgs.map Prod.fst
  xform : ∀ q ∈ s.2.zip dcfgs, ∃ j, j < k ∧
    q.1.2.x = (j : ℚ) * (ROW_WIDTH + TABLE_GUTTER_SIZE)
  load : ∀ c, c < k → s.1.getD c 0 =
    columnLoad (s.2.zip dcfgs) ((c : ℚ) * (ROW_WIDTH + TABLE_GUTTER_SIZE))
  fillPos : ∀ c, c < k → c < min dcfgs.length k → 0 < s.1.getD c 0
  fillZero : ∀ c, c < k → min dcfgs.length k ≤ c → s.1.getD c 0 = 0
  yload : ∀ i, (hi : i < (s.2.zip dcfgs).length) →
    ((s.2.zip dcfgs).get ⟨i, hi⟩).1.2.y =
      columnLoad ((s.2.zip dcfgs).take i) (((s.2.zip dcfgs).get ⟨i, hi⟩).1.2.x)

/-! ## Concrete example data (used to witness satisfiability of hypotheses) -/

def exFieldA : Field :=
  { id := "fldA", name := "A", type := FieldType.multipleRecordLinks,
    options := { inverseLinkFieldId := "fldB", linkedTableId := "tbl2" } }

def exFieldB : Field :=
  { id := "fldB", name := "B", type := FieldType.multipleRecordLinks,
    options := { inverseLinkFieldId := "fldA", linkedTableId := "tbl1" } }

def exTable1 : Table := { id := "tbl1", name := "T1", fields := [exFieldA] }

def exTable2 : Table := { id := "tbl2", name := "T2", fields := [exFieldB] }

/-- Two tables with mirrored linked-record fields. -/
def exBase : Base := ⟨[exTable1, exTable2]⟩

/-- The single link materialized for the `exBase` bidirectional pair. -/
def exLinkAB : Link :=
  { id := "fldA_fldB", sourceId := "fldA", sourceTableId := "tbl1",
    targetId := "fldB", targetTableId := "tbl2",
    type := FieldType.multipleRecordLinks, tooltipLabel := some "Linked record" }

/-- A snapshot whose only linked-record field points at a table (`tbl2`) that
is absent from the snapshot: its link has a dangling target. -/
def exDanglingBase : Base := ⟨[exTable1]⟩

def exSelfField : Field :=
  { id := "fldS", name := "S", type := FieldType.multipleRecordLinks,
    options := { linkedTableId := "tbl1" } }

def exSelfTable : Table := { id := "tbl1", name := "T1", fields := [exSelfField] }

/-- A snapshot with a single self-referencing linked-record field. -/
def exSelfBase : Base := ⟨[exSelfTable]⟩

/-- The self-link emitted for `exSelfBase`: its target is the table header. -/
def exSelfLink : Link :=
  { id := "fldS_tbl1", sourceId := "fldS", sourceTableId := "tbl1",
    targetId := "tbl1", targetTableId := "tbl1",
    type := FieldType.multipleRecordLinks, tooltipLabel := some "Linked record" }

def exNode (id : String) : Node :=
  { id := id, name := id, type := "table", tableName := id, tableId := id,
    tooltipLabel := some "Table" }

/-- A table config with no field rows. -/
def exCfg (id : String) : TableConfig := ⟨exNode id, []⟩

/-- A table config with two (placeholder) field rows. -/
def exCfg2 (id : String) : TableConfig :=
  ⟨exNode id, [exNode (id ++ "f1"), exNode (id ++ "f2")]⟩

/-- Three table configs with distinct ids (layout example). -/
def exCfgs3 : Obj TableConfig := [("a", exCfg "a"), ("b", exCfg2 "b"), ("c", exCfg "c")]

/-- The table config that `parseSchema exSelfBase` produces for `tbl1`. -/
def exSelfCfg : TableConfig :=
  ⟨exNode "tbl1",
    [{ id := "fldS", name := "S", type := "field", tableName := "T1",
       tableId := "tbl1", tooltipLabel := some "Linked records field" }]⟩

/-! ## Lemmas about the JS object model -/

theorem objGet_objSet_self {α : Type} (m : Obj α) (k : String) (v : α) :
    objGet (objSet m k v) k = some v := by
  induction m with
  | nil => simp [objGet, objSet]
  | cons p t ih =>
      obtain ⟨k', v'⟩ := p
      by_cases h : k' = k
      · simp [objGet, objSet, h]
      · simp [objGet, objSet, h, ih]

theorem objGet_objSet_ne {α : Type} (m : Obj α) {k k' : String} (v : α)
    (h : k' ≠ k) : objGet (objSet m k' v) k = objGet m k := by
  induction m with
  | nil => simp [objGet, objSet, h]
  | cons p t ih =>
      obtain ⟨k'', v''⟩ := p
      by_cases h2 : k'' = k'
      · subst h2
        simp [objGet, objSet, h]
      · simp only [objSet, if_neg h2]
        by_cases h3 : k'' = k
        · simp [objGet, h3]
        · simp [objGet, h3, ih]

theorem mem_objSet {α : Type} {m : Obj α} {k : String} {v : α} {p : String × α}
    (h : p ∈ objSet m k v) : p = (k, v) ∨ p ∈ m := by
  induction m with
  | nil => simpa [objSet] using h
  | cons q t ih =>
      obtain ⟨k', v'⟩ := q
      by_cases h2 : k' = k
      · simp only [objSet, if_pos h2] at h
        rcases List.mem_cons.mp h with h | h
        · exact Or.inl h
        · exact Or.inr (List.mem_cons_of_mem _ h)
      · simp only [objSet, if_neg h2] at h
        rcases List.mem_cons.mp h with h | h
        · exact Or.inr (by simp [h])
        · rcases ih h with h3 | h3
          · exact Or.inl h3
          · exact Or.inr (List.mem_cons_of_mem _ h3)

theorem keys_objSet_of_mem {α : Type} {m : Obj α} {k : String} (v : α)
    (h : k ∈ m.map Prod.fst) :
    (objSet m k v).map Prod.fst = m.map Prod.fst := by
  induction m with
  | nil => simp at h
  | cons q t ih =>
      obtain ⟨k', v'⟩ := q
      by_cases h2 : k' = k
      · simp [objSet, h2]
      · simp only [List.map_cons, List.mem_cons] at h
        rcases h with h | h
        · exact absurd h.symm h2
        · simp [objSet, h2, ih h]

theorem objSet_of_not_mem_keys {α : Type} {m : Obj α} {k : String} (v : α)
    (h : k ∉ m.map Prod.fst) : objSet m k v = m ++ [(k, v)] := by
  induction m with
  | nil => simp [objSet]
  | cons q t ih =>
      obtain ⟨k', v'⟩ := q
      simp only [List.map_cons, List.mem_cons] at h
      push_neg at h
      have h1 : ¬ k' = k := fun hh => h.1 hh.symm
      simp [objSet, h1, ih h.2]

theorem keys_nodup_objSet {α : Type} {m : Obj α} (k : String) (v : α)
    (h : (m.map Prod.fst).Nodup) : ((objSet m k v).map Prod.fst).Nodup := by
  by_cases hk : k ∈ m.map Prod.fst
  · rwa [keys_objSet_of_mem v hk]
  · rw [objSet_of_not_mem_keys v hk]
    simp only [List.map_append, List.map_cons, List.map_nil]
    exact List.Nodup.append h (List.nodup_singleton k)
      (by simpa [List.disjoint_right] using hk)

theorem objGet_eq_none_iff {α : Type} {m : Obj α} {k : String} :
    objGet m k = none ↔ k ∉ m.map Prod.fst := by
  induction m with
  | nil => simp [objGet]
  | cons q t ih =>
      obtain ⟨k', v'⟩ := q
      by_cases h : k' = k
      · simp [objGet, h]
      · simp [objGet, h, ih, Ne.symm h]

theorem mem_keys_of_objGet {α : Type} {m : Obj α} {k : String} {v : α}
    (h : objGet m k = some v) : k ∈ m.map Prod.fst := by
  by_contra hk
  rw [← objGet_eq_none_iff] at hk
  rw [h] at hk
  exact Option.noConfusion hk

theorem mem_of_objGet_eq_some {α : Type} {m : Obj α} {k : String} {v : α}
    (h : objGet m k = some v) : (k, v) ∈ m := by
  induction m with
  | nil => simp [objGet] at h
  | cons q t ih =>
      obtain ⟨k', v'⟩ := q
      by_cases h2 : k' = k
      · simp only [objGet, if_pos h2] at h
        obtain rfl := Option.some.inj h
        simp [h2]
      · simp only [objGet, if_neg h2] at h
        exact List.mem_cons_of_mem _ (ih h)

theorem objGet_eq_some_of_mem {α : Type} {m : Obj α} {k : String} {v : α}
    (hnd : (m.map Prod.fst).Nodup) (h : (k, v) ∈ m) : objGet m k = some v := by
  induction m with
  | nil => simp at h
  | cons q t ih =>
      obtain ⟨k', v'⟩ := q
      simp only [List.map_cons, List.nodup_cons] at hnd
      rcases List.mem_cons.mp h with h2 | h2
      · obtain ⟨rfl, rfl⟩ := Prod.mk.injEq .. ▸ h2
        simp [objGet]
      · have hk : k' ≠ k := by
          rintro rfl
          exact hnd.1 (by simpa using List.mem_map_of_mem Prod.fst h2)
        simp [objGet, hk, ih hnd.2 h2]

theorem objGet_filter_of_pred {α : Type} {m : Obj α} {k : String} {v : α}
    {p : String × α → Bool} (h : objGet m k = some v) (hp : p (k, v) = true) :
    objGet (m.filter p) k = some v := by
  induction m with
  | nil => simp [objGet] at h
  | cons q t ih =>
      obtain ⟨k', v'⟩ := q
      by_cases h2 : k' = k
      · subst h2
        simp only [objGet, if_pos rfl] at h
        obtain rfl := Option.some.inj h
        simp [List.filter, hp, objGet]
      · simp only [objGet, if_neg h2] at h
        by_cases h3 : p (k', v') = true
        · simpa [List.filter, h3, objGet, h2] using ih h
        · simp only [List.filter, Bool.not_eq_true] at h3 ⊢
          rw [h3]
          exact ih h

theorem objGet_filter_none {α : Type} {m : Obj α} {k : String}
    {p : String × α → Bool} (h : objGet m k = none) :
    objGet (m.filter p) k = none := by
  rw [objGet_eq_none_iff] at h ⊢
  intro hk
  exact h (by
    obtain ⟨q, hq, hq2⟩ := List.mem_map.mp hk
    exact List.mem_map.mpr ⟨q, List.mem_of_mem_filter hq, hq2⟩)

theorem objGet_isSome_objSet {α : Type} (m : Obj α) (k k' : String) (v : α)
    (h : (objGet m k).isSome) : (objGet (objSet m k' v) k).isSome := by
  by_cases h2 : k' = k
  · subst h2
    simp [objGet_objSet_self]
  · rwa [objGet_objSet_ne m v h2]

/-! ## Injectivity of `createLinkId` on underscore-free ids -/

theorem append_underscore_inj {a b : List Char} (x y : List Char)
    (ha : '_' ∉ a) (hb : '_' ∉ b)
    (h : a ++ '_' :: x = b ++ '_' :: y) : a = b ∧ x = y := by
  induction a generalizing b with
  | nil =>
      cases b with
      | nil => simpa using h
      | cons c bs =>
          simp only [List.nil_append, List.cons_append, List.cons.injEq] at h
          exact absurd (h.1 ▸ List.mem_cons_self c bs) (h.1 ▸ hb)
  | cons c as ih =>
      cases b with
      | nil =>
          simp only [List.cons_append, List.nil_append, List.cons.injEq] at h
          exact absurd (h.1 ▸ List.mem_cons_self c as) (h.1 ▸ ha)
      | cons d bs =>
          simp only [List.cons_append, List.cons.injEq] at h
          obtain ⟨rfl, h2⟩ := h
          have := ih (List.not_mem_of_not_mem_cons ha)
            (List.not_mem_of_not_mem_cons hb) h2
          exact ⟨by rw [this.1], this.2⟩

theorem createLinkId_inj {a b x y : String}
    (ha : '_' ∉ a.data) (hb : '_' ∉ b.data)
    (h : createLinkId a x = createLinkId b y) : a = b ∧ x = y := by
  have hd : a.data ++ '_' :: x.data = b.data ++ '_' :: y.data := by
    have := congrArg String.data h
    simpa [createLinkId, String.data_append] using this
  obtain ⟨h1, h2⟩ := append_underscore_inj x.data y.data ha hb hd
  exact ⟨String.ext h1, String.ext h2⟩

theorem createLinkId_ne_of_ne {a b x y : String}
    (ha : '_' ∉ a.data) (hb : '_' ∉ b.data) (hab : a ≠ b) :
    createLinkId a x ≠ createLinkId b y := by
  intro h
  exact hab (createLinkId_inj ha hb h).1

/-! ## C9 — `pushToOrInitializeArray` error behaviour -/

/-- C9 (counterexample): an accumulator entry holding a FALSY non-list value
(here modelled by `JsVal.nonArr false`, e.g. the JS value `0`) does NOT make
`pushToOrInitializeArray` throw, contrary to the claim: the `!obj[key]`
truthiness test treats it like an absent entry and silently reinitializes it
to a one-element list. -/
theorem pushToOrInitializeArray_falsy_no_throw :
    pushToOrInitializeArray [("k", (JsVal.nonArr false : JsVal ℕ))] "k" 0 =
      .ok [("k", JsVal.arr [0])] := by
  rfl

/-- C9 (amended): `pushToOrInitializeArray` initializes an absent OR falsy
entry to a one-element list, appends to a list entry, and signals the fatal
internal error only when the entry holds a TRUTHY non-list value. -/
theorem pushToOrInitializeArray_spec {α : Type} (obj : Obj (JsVal α))
    (key : String) (value : α) :
    (objGet obj key = none →
      pushToOrInitializeArray obj key value = .ok (objSet obj key (.arr [value]))) ∧
    (objGet obj key = some (.nonArr true) →
      pushToOrInitializeArray obj key value =
        .error ("Expected an array at " ++ key ++ ", but found a non-array value")) ∧
    (objGet obj key = some (.nonArr false) →
      pushToOrInitializeArray obj key value = .ok (objSet obj key (.arr [value]))) ∧
    (∀ elems, objGet obj key = some (.arr elems) →
      pushToOrInitializeArray obj key value =
        .ok (objSet obj key (.arr (elems ++ [value])))) := by
  refine ⟨fun h => ?_, fun h => ?_, fun h => ?_, fun elems h => ?_⟩ <;>
    simp [pushToOrInitializeArray, h]

/-- C9 witness: the amended behaviour at concrete inputs — a truthy non-list
entry aborts, an absent entry is initialized. -/
theorem pushToOrInitializeArray_spec_witness :
    pushToOrInitializeArray [("k", (JsVal.nonArr true : JsVal ℕ))] "k" 0 =
      .error "Expected an array at k, but found a non-array value" ∧
    pushToOrInitializeArray ([] : Obj (JsVal ℕ)) "k" 0 = .ok [("k", JsVal.arr [0])] :=
  ⟨(pushToOrInitializeArray_spec [("k", (JsVal.nonArr true : JsVal ℕ))] "k" 0).2.1 rfl,
    (pushToOrInitializeArray_spec ([] : Obj (JsVal ℕ)) "k" 0).1 rfl⟩

/-! ## C7 — `extendLayout` identity short-circuit -/

/-- C7: when every table id of the configs already has a coordinate entry,
`getUpdatedTableCoords` returns the existing coordinate map itself. -/
theorem getUpdatedTableCoords_identity (newTableConfigs : Obj TableConfig)
    (oldTableCoords : Obj Coords)
    (h : ∀ k ∈ newTableConfigs.map Prod.fst, k ∈ oldTableCoords.map Prod.fst) :
    getUpdatedTableCoords newTableConfigs oldTableCoords = oldTableCoords := by
  unfold getUpdatedTableCoords
  have hnil : (newTableConfigs.map Prod.fst).filter
      (fun k => !((oldTableCoords.map Prod.fst).contains k)) = [] := by
    apply List.filter_eq_nil_iff.mpr
    intro a ha
    simp [List.contains, h a ha]
  rw [hnil]
  simp

/-- C7 witness. -/
theorem getUpdatedTableCoords_identity_witness :
    (∀ k ∈ ([("a", exCfg "a")] : Obj TableConfig).map Prod.fst,
        k ∈ ([("a", (⟨0, 0⟩ : Coords))] : Obj Coords).map Prod.fst) ∧
    getUpdatedTableCoords [("a", exCfg "a")] [("a", (⟨0, 0⟩ : Coords))] =
      [("a", (⟨0, 0⟩ : Coords))] :=
  ⟨by decide, getUpdatedTableCoords_identity _ _ (by decide)⟩

/-! ## C8 — `extendLayout` never disturbs existing entries -/

theorem mem_keys_objSet {α : Type} {m : Obj α} {k k' : String} {v : α}
    (h : k' ∈ (objSet m k v).map Prod.fst) : k' = k ∨ k' ∈ m.map Prod.fst := by
  obtain ⟨q, hq, hq2⟩ := List.mem_map.mp h
  rcases mem_objSet hq with h2 | h2
  · exact Or.inl (by rw [← hq2, h2])
  · exact Or.inr (hq2 ▸ List.mem_map_of_mem Prod.fst h2)

theorem spreadObj_objGet_of_ne {α : Type} (a b : Obj α) (k : String)
    (h : ∀ k' ∈ b.map Prod.fst, k' ≠ k) :
    objGet (spreadObj a b) k = objGet a k := by
  induction b generalizing a with
  | nil => rfl
  | cons p t ih =>
      have hstep : objGet (objSet a p.1 p.2) k = objGet a k :=
        objGet_objSet_ne a p.2 (h p.1 (by simp))
      have := ih (objSet a p.1 p.2) (fun k' hk' => h k' (by simp [hk']))
      simpa [spreadObj, List.foldl_cons, hstep] using this

theorem keys_newTableCoordsFold (newTableConfigs : Obj TableConfig)
    (rightMost : ℚ) (ids : List String) (s : ℚ × Obj Coords) (k : String)
    (h : k ∈ (ids.foldl (newTableCoordsStep newTableConfigs rightMost) s).2.map Prod.fst) :
    k ∈ ids ∨ k ∈ s.2.map Prod.fst := by
  induction ids generalizing s with
  | nil => exact Or.inr h
  | cons id t ih =>
      rcases ih (newTableCoordsStep newTableConfigs rightMost s id)
          (by simpa using h) with h2 | h2
      · exact Or.inl (List.mem_cons_of_mem _ h2)
      · rcases mem_keys_objSet h2 with h3 | h3
        · exact Or.inl (by simp [h3])
        · exact Or.inr h3

/-- C8: `extendLayout` maps every table id that already had a coordinate to
exactly that coordinate — existing entries are never overwritten, mutated or
removed. -/
theorem getUpdatedTableCoords_preserves_existing (newTableConfigs : Obj TableConfig)
    (oldTableCoords : Obj Coords) (k : String) (c : Coords)
    (h : objGet oldTableCoords k = some c) :
    objGet (getUpdatedTableCoords newTableConfigs oldTableCoords) k = some c := by
  unfold getUpdatedTableCoords
  by_cases hnil : (newTableConfigs.map Prod.fst).filter
      (fun k => !((oldTableCoords.map Prod.fst).contains k)) = []
  · rw [if_pos hnil]
    exact h
  · rw [if_neg hnil]
    rw [spreadObj_objGet_of_ne _ _ k ?_]
    · exact h
    · intro k' hk'
      rcases keys_newTableCoordsFold _ _ _ _ _ hk' with h2 | h2
      · have hf := List.of_mem_filter h2
        intro hkk
        subst hkk
        have hk : k' ∈ oldTableCoords.map Prod.fst := mem_keys_of_objGet h
        simp [List.contains, hk] at hf
      · simp at h2

/-- C8 witness: an existing entry survives the extension pass that places a
genuinely new table. -/
theorem getUpdatedTableCoords_preserves_existing_witness :
    objGet ([("a", (⟨0, 0⟩ : Coords))] : Obj Coords) "a" = some ⟨0, 0⟩ ∧
    objGet (getUpdatedTableCoords [("a", exCfg "a"), ("b", exCfg "b")]
      [("a", (⟨0, 0⟩ : Coords))]) "a" = some ⟨0, 0⟩ :=
  ⟨rfl, getUpdatedTableCoords_preserves_existing _ _ "a" ⟨0, 0⟩ rfl⟩

/-! ## C2 — `calculateLinkCoords` horizontal classification -/

theorem ok_bind {ε α β : Type} (a : α) (f : α → Except ε β) :
    (Except.ok a : Except ε α) >>= f = f a := rfl

theorem error_bind {ε α β : Type} (e : ε) (f : α → Except ε β) :
    (Except.error e : Except ε α) >>= f = Except.error e := rfl

theorem pure_eq_ok {ε α : Type} (a : α) : (pure a : Except ε α) = Except.ok a := rfl

/-- A successful `calculateLinkCoords` run produces exactly the classification
of the two resolved node coordinates, whose x positions are the table x
positions shifted by the border width. -/
theorem calculateLinkCoords_ok (link : Link) (tableCoordsByTableId : Obj Coords)
    (tableConfigsByTableId : Obj TableConfig) (r : LinkCoords)
    (sourceTableCoords targetTableCoords : Coords)
    (hs : objGet tableCoordsByTableId link.sourceTableId = some sourceTableCoords)
    (ht : objGet tableCoordsByTableId link.targetTableId = some targetTableCoords)
    (hr : calculateLinkCoords link tableCoordsByTableId tableConfigsByTableId = .ok r) :
    ∃ sy ty : ℚ,
      r = classifyLinkCoords ⟨sourceTableCoords.x + TABLE_BORDER_WIDTH, sy⟩
        ⟨targetTableCoords.x + TABLE_BORDER_WIDTH, ty⟩ := by
  unfold calculateLinkCoords at hr
  rw [hs, ht] at hr
  simp only [fromOption, ok_bind] at hr
  cases hc1 : objGet tableConfigsByTableId link.sourceTableId with
  | none =>
      rw [hc1] at hr
      simp only [fromOption, ok_bind, error_bind] at hr
      exact Except.noConfusion hr
  | some sourceTableConfig =>
      rw [hc1] at hr
      simp only [fromOption, ok_bind] at hr
      cases hidx : sourceTableConfig.fieldNodes.findIdx? (fun n => n.id == link.sourceId) with
      | none =>
          rw [hidx] at hr
          simp only [fromOption, ok_bind, error_bind] at hr
          exact Except.noConfusion hr
      | some sourceFieldIndex =>
          rw [hidx] at hr
          simp only [fromOption, ok_bind] at hr
          cases hc2 : objGet tableConfigsByTableId link.targetTableId with
          | none =>
              rw [hc2] at hr
              simp only [fromOption, ok_bind, error_bind] at hr
              exact Except.noConfusion hr
          | some targetTableConfig =>
              rw [hc2] at hr
              simp only [fromOption, ok_bind] at hr
              by_cases hself : link.targetId = link.targetTableId
              · rw [if_pos hself] at hr
                simp only [fromOption, ok_bind, error_bind, pure_eq_ok] at hr
                exact ⟨_, _, (Except.ok.inj hr).symm⟩
              · rw [if_neg hself] at hr
                cases hidx2 : targetTableConfig.fieldNodes.findIdx?
                    (fun n => n.id == link.targetId) with
                | none =>
                    rw [hidx2] at hr
                    simp only [fromOption, ok_bind, error_bind, pure_eq_ok] at hr
                    exact Except.noConfusion hr
                | some targetFieldIndex =>
                    rw [hidx2] at hr
                    simp only [fromOption, ok_bind, error_bind, pure_eq_ok] at hr
                    exact ⟨_, _, (Except.ok.inj hr).symm⟩

/-- The three-way classification of `classifyLinkCoords` in terms of the
relative horizontal position of the two node coordinates. -/
theorem classifyLinkCoords_spec (s t : Coords) :
    (s.x - t.x > ROW_WIDTH →
      classifyLinkCoords s t = ⟨⟨s.x, s.y⟩, ⟨t.x + ROW_WIDTH, t.y⟩, true⟩) ∧
    (t.x - s.x > ROW_WIDTH →
      classifyLinkCoords s t = ⟨⟨s.x + ROW_WIDTH, s.y⟩, ⟨t.x, t.y⟩, true⟩) ∧
    (|s.x - t.x| ≤ ROW_WIDTH →
      classifyLinkCoords s t = ⟨⟨s.x + ROW_WIDTH, s.y⟩, ⟨t.x + ROW_WIDTH, t.y⟩, false⟩) := by
  have hw : (0 : ℚ) < ROW_WIDTH := by norm_num [ROW_WIDTH]
  refine ⟨fun h => ?_, fun h => ?_, fun h => ?_⟩
  · rw [classifyLinkCoords, if_pos h]
  · rw [classifyLinkCoords, if_neg (by linarith), if_pos h]
  · obtain ⟨h1, h2⟩ := abs_le.mp h
    rw [classifyLinkCoords, if_neg (by linarith), if_neg (by linarith)]

/-- C2: for every link and pair of table placements whose lookups succeed,
`calculateLinkCoords` classifies the relative horizontal position into
exactly three cases: source more than one row-width right of target (source
left edge, target right edge, direct), target more than one row-width right
of source (source right edge, target left edge, direct), and horizontal
overlap (both right edges, not direct). -/
theorem calculateLinkCoords_classification (link : Link)
    (tableCoordsByTableId : Obj Coords) (tableConfigsByTableId : Obj TableConfig)
    (r : LinkCoords) (sourceTableCoords targetTableCoords : Coords)
    (hs : objGet tableCoordsByTableId link.sourceTableId = some sourceTableCoords)
    (ht : objGet tableCoordsByTableId link.targetTableId = some targetTableCoords)
    (hr : calculateLinkCoords link tableCoordsByTableId tableConfigsByTableId = .ok r) :
    (sourceTableCoords.x - targetTableCoords.x > ROW_WIDTH →
      r.sourceCoords.x = sourceTableCoords.x + TABLE_BORDER_WIDTH ∧
      r.targetCoords.x = targetTableCoords.x + TABLE_BORDER_WIDTH + ROW_WIDTH ∧
      r.useDirectPath = true) ∧
    (targetTableCoords.x - sourceTableCoords.x > ROW_WIDTH →
      r.sourceCoords.x = sourceTableCoords.x + TABLE_BORDER_WIDTH + ROW_WIDTH ∧
      r.targetCoords.x = targetTableCoords.x + TABLE_BORDER_WIDTH ∧
      r.useDirectPath = true) ∧
    (|sourceTableCoords.x - targetTableCoords.x| ≤ ROW_WIDTH →
      r.sourceCoords.x = sourceTableCoords.x + TABLE_BORDER_WIDTH + ROW_WIDTH ∧
      r.targetCoords.x = targetTableCoords.x + TABLE_BORDER_WIDTH + ROW_WIDTH ∧
      r.useDirectPath = false) := by
  obtain ⟨sy, ty, rfl⟩ := calculateLinkCoords_ok link tableCoordsByTableId
    tableConfigsByTableId r sourceTableCoords targetTableCoords hs ht hr
  obtain ⟨c1, c2, c3⟩ := classifyLinkCoords_spec
    ⟨sourceTableCoords.x + TABLE_BORDER_WIDTH, sy⟩
    ⟨targetTableCoords.x + TABLE_BORDER_WIDTH, ty⟩
  refine ⟨fun h => ?_, fun h => ?_, fun h => ?_⟩
  · rw [c1 (by simpa using h)]
    exact ⟨rfl, rfl, rfl⟩
  · rw [c2 (by simpa using h)]
    exact ⟨rfl, rfl, rfl⟩
  · rw [c3 (by simpa using h)]
    exact ⟨rfl, rfl, rfl⟩

/-- C2 witness: a self-link whose two rows coincide horizontally falls into
the overlap case — both endpoints use right edges and the path is indirect. -/
theorem calculateLinkCoords_classification_witness :
    calculateLinkCoords exSelfLink [("tbl1", (⟨0, 0⟩ : Coords))] [("tbl1", exSelfCfg)] =
      Except.ok ⟨⟨182, 50⟩, ⟨182, 18⟩, false⟩ ∧
    (⟨⟨182, 50⟩, ⟨182, 18⟩, false⟩ : LinkCoords).useDirectPath = false := by
  have hr : calculateLinkCoords exSelfLink [("tbl1", (⟨0, 0⟩ : Coords))]
      [("tbl1", exSelfCfg)] = Except.ok ⟨⟨182, 50⟩, ⟨182, 18⟩, false⟩ := by
    unfold calculateLinkCoords
    norm_num [objGet, exSelfLink, exSelfCfg, exNode, fromOption, ok_bind, pure_eq_ok,
      List.findIdx?, classifyLinkCoords, ROW_WIDTH, ROW_HEIGHT,
      TABLE_BORDER_WIDTH]
  refine ⟨hr, ?_⟩
  exact ((calculateLinkCoords_classification exSelfLink
    [("tbl1", (⟨0, 0⟩ : Coords))] [("tbl1", exSelfCfg)]
    ⟨⟨182, 50⟩, ⟨182, 18⟩, false⟩ ⟨0, 0⟩ ⟨0, 0⟩ (by simp [objGet, exSelfLink])
    (by simp [objGet, exSelfLink]) hr).2.2
    (by norm_num [ROW_WIDTH])).2.2

/-! ## C3 — direct (S-shaped) path control points -/

/-- C3 (counterexample): for the direct path from (0,0) to (300,300) the
scale factor is exactly 1, so the offset |dx|·(1−scale) is 0 and the claim
("both control points at the horizontal position of the endpoint that is not
the leftmost") predicts x = 300 for both control points; the code instead
places the second control point at x = 0, the x of the leftmost (source)
endpoint. -/
theorem calculateLinkPath_claim_counterexample :
    (calculateLinkPath ⟨⟨0, 0⟩, ⟨300, 300⟩, true⟩).control2.x = 0 ∧
    (300 : ℚ) - |(0 : ℚ) - 300| * (1 - (1/2 + min |(0 : ℚ) - 300| 300 / 600)) = 300 ∧
    (0 : ℚ) ≠ 300 := by
  refine ⟨?_, by norm_num, by norm_num⟩
  norm_num [calculateLinkPath]

/-- C3 (amended): for every direct path, the scale factor is
`1/2 + min |y_s − y_t| 300 / 600 ∈ [1/2, 1]`, and each control point's x is
the OPPOSITE endpoint's x offset toward the control point's own endpoint by
`|dx|·(1−scale)` — i.e. control point 1 (at the source's y) lies at
`(1−scale)·x_s + scale·x_t` and control point 2 (at the target's y) at
`scale·x_s + (1−scale)·x_t`; the path starts at the source and ends at the
target. -/
theorem calculateLinkPath_direct_spec (lc : LinkCoords)
    (h : lc.useDirectPath = true) :
    ∃ scale : ℚ,
      scale = 1/2 + min |lc.sourceCoords.y - lc.targetCoords.y| 300 / 600 ∧
      1/2 ≤ scale ∧ scale ≤ 1 ∧
      calculateLinkPath lc =
        { start := lc.sourceCoords
          control1 := ⟨(1 - scale) * lc.sourceCoords.x + scale * lc.targetCoords.x,
            lc.sourceCoords.y⟩
          control2 := ⟨scale * lc.sourceCoords.x + (1 - scale) * lc.targetCoords.x,
            lc.targetCoords.y⟩
          endPoint := lc.targetCoords } := by
  refine ⟨1/2 + min |lc.sourceCoords.y - lc.targetCoords.y| 300 / 600, rfl, ?_, ?_, ?_⟩
  · have h1 : (0 : ℚ) ≤ min |lc.sourceCoords.y - lc.targetCoords.y| 300 :=
      le_min (abs_nonneg _) (by norm_num)
    linarith
  · have h2 : min |lc.sourceCoords.y - lc.targetCoords.y| 300 ≤ 300 :=
      min_le_right _ _
    linarith
  · unfold calculateLinkPath
    rw [h]
    simp only [if_true]
    rcases lt_trichotomy lc.sourceCoords.x lc.targetCoords.x with hx | hx | hx
    · have habs : |lc.sourceCoords.x - lc.targetCoords.x| =
          lc.targetCoords.x - lc.sourceCoords.x := by
        rw [abs_of_neg (by linarith)]
        ring
      simp only [if_pos hx, if_neg (ne_of_gt hx), if_pos rfl, habs]
      congr 1 <;> simp <;> ring
    · simp only [hx, lt_self_iff_false, if_neg, if_pos rfl, sub_self, abs_zero, zero_mul]
      congr 1 <;> simp <;> ring
    · have habs : |lc.sourceCoords.x - lc.targetCoords.x| =
          lc.sourceCoords.x - lc.targetCoords.x := by
        rw [abs_of_pos (by linarith)]
      have hlt : ¬ lc.sourceCoords.x < lc.targetCoords.x := not_lt_of_gt hx
      simp only [if_neg hlt, if_pos rfl, if_neg (ne_of_gt hx), habs]
      congr 1 <;> simp <;> ring

/-- C3 witness: the amended control-point formulas at a concrete direct link
from (0,0) to (100,60): scale = 0.6, control points at x = 60 and x = 40. -/
theorem calculateLinkPath_direct_spec_witness :
    (⟨⟨0, 0⟩, ⟨100, 60⟩, true⟩ : LinkCoords).useDirectPath = true ∧
    calculateLinkPath ⟨⟨0, 0⟩, ⟨100, 60⟩, true⟩ =
      ⟨⟨0, 0⟩, ⟨60, 0⟩, ⟨40, 60⟩, ⟨100, 60⟩⟩ := by
  refine ⟨rfl, ?_⟩
  obtain ⟨s, hs, h1, h2, hp⟩ :=
    calculateLinkPath_direct_spec ⟨⟨0, 0⟩, ⟨100, 60⟩, true⟩ rfl
  rw [hp]
  norm_num [hs]

/-! ## C4 — the defensive filter on the link set -/

/-- C4: every link in the set returned by `parseSchema` has both its
`targetTableId` and its `targetId` present as keys of the returned node set;
conversely every accumulated link satisfying this survives the defensive
filtering pass (so exactly the stale links are dropped). -/
theorem parseSchema_filter_spec (base : Base) :
    (∀ p ∈ (parseSchema base).linksById,
      objHas (parseSchema base).nodesById p.2.targetTableId = true ∧
      objHas (parseSchema base).nodesById p.2.targetId = true) ∧
    (∀ p ∈ (parseTables base.tables).linksById,
      objHas (parseTables base.tables).nodesById p.2.targetTableId = true →
      objHas (parseTables base.tables).nodesById p.2.targetId = true →
      p ∈ (parseSchema base).linksById) := by
  have hL : (parseSchema base).linksById =
      filterLinks (parseTables base.tables).linksById (parseTables base.tables).nodesById := rfl
  have hN : (parseSchema base).nodesById = (parseTables base.tables).nodesById := rfl
  constructor
  · intro p hp
    rw [hL] at hp
    simp only [filterLinks] at hp
    have h := (List.mem_filter.mp hp).2
    rw [Bool.and_eq_true] at h
    rw [hN]
    exact h
  · intro p hp h1 h2
    rw [hL]
    simp only [filterLinks]
    exact List.mem_filter.mpr ⟨hp, by rw [h1, h2]; rfl⟩

/-- C4 witness: in the two-table mirrored snapshot, the surviving link's
target table and target field are both keys of the node set. -/
theorem parseSchema_filter_spec_witness :
    ("fldA_fldB", exLinkAB) ∈ (parseSchema exBase).linksById ∧
    objHas (parseSchema exBase).nodesById exLinkAB.targetTableId = true ∧
    objHas (parseSchema exBase).nodesById exLinkAB.targetId = true := by
  have h := (parseSchema_filter_spec exBase).1 ("fldA_fldB", exLinkAB) (by decide)
  exact ⟨by decide, h.1, h.2⟩

/-! ## Decomposition of the first parsing pass

`linksById` and `dependentLinksByNodeId` are touched only by the per-field
`switch`, so their evolution over the whole first pass is the fold of
`fieldStep` over `fieldPairs base.tables`. -/

theorem processField_acc (table : Table) (s : ParseState × List Node) (field : Field) :
    (processField table s field).1.acc = fieldStep s.1.acc (table, field) := by
  by_cases h : field.options.isValid = false <;>
    simp [processField, fieldStep, ParseState.acc, h]

theorem foldl_processField_acc (table : Table) (fields : List Field)
    (s : ParseState × List Node) :
    (fields.foldl (processField table) s).1.acc =
      (fields.map (fun f => (table, f))).foldl fieldStep s.1.acc := by
  induction fields generalizing s with
  | nil => rfl
  | cons f t ih =>
      simp only [List.foldl_cons, List.map_cons]
      rw [ih (processField table s f), processField_acc]

theorem processTable_acc (st : ParseState) (table : Table) :
    (processTable st table).acc =
      (table.fields.map (fun f => (table, f))).foldl fieldStep st.acc := by
  have h := foldl_processField_acc table table.fields (st, [])
  simp only [processTable, ParseState.acc] at *
  exact h

theorem foldl_processTable_acc (tables : List Table) (st : ParseState) :
    (tables.foldl processTable st).acc = (fieldPairs tables).foldl fieldStep st.acc := by
  induction tables generalizing st with
  | nil => rfl
  | cons t ts ih =>
      simp only [List.foldl_cons, fieldPairs, List.flatMap_cons, List.foldl_append]
      rw [ih (processTable st t), processTable_acc]
      rfl

theorem parseTables_acc (tables : List Table) :
    (parseTables tables).acc = (fieldPairs tables).foldl fieldStep ⟨[], []⟩ :=
  foldl_processTable_acc tables ⟨[], [], [], []⟩

theorem mem_fieldPairs {tables : List Table} {p : Table × Field}
    (h : p ∈ fieldPairs tables) : p.1 ∈ tables ∧ p.2 ∈ p.1.fields := by
  simp only [fieldPairs, List.mem_flatMap, List.mem_map] at h
  obtain ⟨t, ht, f, hf, rfl⟩ := h
  exact ⟨ht, hf⟩

/-! ## Write-locality of `fieldStep` on `linksById`

Every key the per-field `switch` writes into `linksById` is of the form
`createLinkId field.id _`, so a key that is not of that form keeps its
binding across the step. -/

theorem addReferencedFieldLink_links_get (table : Table) (field : Field)
    (acc : ParseAcc) (dependentFieldId : String) {k : String}
    (h : ∀ x, k ≠ createLinkId field.id x) :
    objGet (addReferencedFieldLink table field acc dependentFieldId).linksById k =
      objGet acc.linksById k := by
  simp only [addReferencedFieldLink]
  exact objGet_objSet_ne _ _ (Ne.symm (h dependentFieldId))

theorem foldl_addReferencedFieldLink_links_get (table : Table) (field : Field)
    (ids : List String) (acc : ParseAcc) {k : String}
    (h : ∀ x, k ≠ createLinkId field.id x) :
    objGet ((ids.foldl (addReferencedFieldLink table field) acc)).linksById k =
      objGet acc.linksById k := by
  induction ids generalizing acc with
  | nil => rfl
  | cons i t ih =>
      simp only [List.foldl_cons]
      rw [ih (addReferencedFieldLink table field acc i),
        addReferencedFieldLink_links_get table field acc i h]

theorem addRecordLinkLinks_links_get (table : Table) (field : Field)
    (acc : ParseAcc) {k : String} (h : ∀ x, k ≠ createLinkId field.id x) :
    objGet (addRecordLinkLinks table field acc).linksById k = objGet acc.linksById k := by
  simp only [addRecordLinkLinks]
  cases table.getFieldByIdIfExists field.options.recordLinkFieldId with
  | none =>
      exact objGet_objSet_ne _ _ (Ne.symm (h field.options.recordLinkFieldId))
  | some recordLinkField =>
      simp only
      rw [objGet_objSet_ne _ _ (Ne.symm (h field.options.fieldIdInLinkedTable)),
        objGet_objSet_ne _ _ (Ne.symm (h field.options.recordLinkFieldId))]

theorem processFieldLinks_links_get (table : Table) (field : Field)
    (acc : ParseAcc) {k : String} (h : ∀ x, k ≠ createLinkId field.id x) :
    objGet (processFieldLinks table field acc).linksById k = objGet acc.linksById k := by
  cases htype : field.type with
  | multipleRecordLinks =>
      simp only [processFieldLinks, htype]
      by_cases hinv : field.options.inverseLinkFieldId ≠ ""
      · rw [if_pos hinv]
        cases objGet acc.linksById
            (createLinkId field.options.inverseLinkFieldId field.id) with
        | none =>
            simp only
            exact objGet_objSet_ne _ _ (Ne.symm (h field.options.inverseLinkFieldId))
        | some l => rfl
      · rw [if_neg hinv]
        exact objGet_objSet_ne _ _ (Ne.symm (h field.options.linkedTableId))
  | formula =>
      simp only [processFieldLinks, htype]
      exact foldl_addReferencedFieldLink_links_get table field _ acc h
  | count =>
      simp only [processFieldLinks, htype]
      exact objGet_objSet_ne _ _ (Ne.symm (h field.options.recordLinkFieldId))
  | multipleLookupValues =>
      simp only [processFieldLinks, htype]
      exact addRecordLinkLinks_links_get table field acc h
  | rollup =>
      simp only [processFieldLinks, htype]
      rw [addRecordLinkLinks_links_get table field _ h]
      exact foldl_addReferencedFieldLink_links_get table field _ acc h
  | other =>
      simp only [processFieldLinks, htype]

theorem fieldStep_links_get (p : Table × Field) (acc : ParseAcc) {k : String}
    (h : ∀ x, k ≠ createLinkId p.2.id x) :
    objGet (fieldStep acc p).linksById k = objGet acc.linksById k := by
  by_cases hv : p.2.options.isValid = false
  · simp [fieldStep, hv]
  · simp only [fieldStep, hv, if_false]
    exact processFieldLinks_links_get p.1 p.2 acc h

theorem foldl_fieldStep_links_get (ps : List (Table × Field)) (acc : ParseAcc)
    {k : String} (h : ∀ p ∈ ps, ∀ x, k ≠ createLinkId p.2.id x) :
    objGet ((ps.foldl fieldStep acc)).linksById k = objGet acc.linksById k := by
  induction ps generalizing acc with
  | nil => rfl
  | cons p t ih =>
      simp only [List.foldl_cons]
      rw [ih (fieldStep acc p) (fun q hq => h q (List.mem_cons_of_mem _ hq)),
        fieldStep_links_get p acc (h p (List.mem_cons_self _ _))]

/-! ## Monotonicity of the reverse index under `fieldStep` -/

theorem getL_pushDependentLink (d : Obj (List Link)) (k' : String) (v : Link)
    (k : String) :
    getL (pushDependentLink d k' v) k =
      if k' = k then getL d k ++ [v] else getL d k := by
  by_cases h : k' = k
  · subst h
    simp only [if_pos rfl, pushDependentLink, getL]
    cases hv : objGet d k' with
    | none => simp [objGet_objSet_self, hv]
    | some xs => simp [objGet_objSet_self, hv]
  · simp only [if_neg h, pushDependentLink, getL]
    cases objGet d k' with
    | none => rw [objGet_objSet_ne _ _ h]
    | some xs => rw [objGet_objSet_ne _ _ h]

theorem mem_getL_pushDependentLink {d : Obj (List Link)} {l : Link} {k : String}
    (k' : String) (v : Link) (h : l ∈ getL d k) :
    l ∈ getL (pushDependentLink d k' v) k := by
  rw [getL_pushDependentLink]
  by_cases h2 : k' = k
  · rw [if_pos h2]
    exact List.mem_append_left _ h
  · rwa [if_neg h2]

theorem self_mem_getL_pushDependentLink (d : Obj (List Link)) (k : String) (v : Link) :
    v ∈ getL (pushDependentLink d k v) k := by
  rw [getL_pushDependentLink, if_pos rfl]
  exact List.mem_append_right _ (List.mem_singleton_self v)

theorem addReferencedFieldLink_deps_mono (table : Table) (field : Field)
    (acc : ParseAcc) (dependentFieldId : String) {l : Link} {k : String}
    (h : l ∈ getL acc.dependentLinksByNodeId k) :
    l ∈ getL (addReferencedFieldLink table field acc dependentFieldId).dependentLinksByNodeId k := by
  simp only [addReferencedFieldLink]
  exact mem_getL_pushDependentLink _ _ (mem_getL_pushDependentLink _ _ h)

theorem foldl_addReferencedFieldLink_deps_mono (table : Table) (field : Field)
    (ids : List String) (acc : ParseAcc) {l : Link} {k : String}
    (h : l ∈ getL acc.dependentLinksByNodeId k) :
    l ∈ getL ((ids.foldl (addReferencedFieldLink table field) acc)).dependentLinksByNodeId k := by
  induction ids generalizing acc with
  | nil => exact h
  | cons i t ih =>
      exact ih (addReferencedFieldLink table field acc i)
        (addReferencedFieldLink_deps_mono table field acc i h)

theorem addRecordLinkLinks_deps_mono (table : Table) (field : Field)
    (acc : ParseAcc) {l : Link} {k : String}
    (h : l ∈ getL acc.dependentLinksByNodeId k) :
    l ∈ getL (addRecordLinkLinks table field acc).dependentLinksByNodeId k := by
  simp only [addRecordLinkLinks]
  cases table.getFieldByIdIfExists field.options.recordLinkFieldId with
  | none =>
      exact mem_getL_pushDependentLink _ _ (mem_getL_pushDependentLink _ _ h)
  | some recordLinkField =>
      simp only
      exact mem_getL_pushDependentLink _ _ (mem_getL_pushDependentLink _ _
        (mem_getL_pushDependentLink _ _ (mem_getL_pushDependentLink _ _ h)))

theorem processFieldLinks_deps_mono (table : Table) (field : Field)
    (acc : ParseAcc) {l : Link} {k : String}
    (h : l ∈ getL acc.dependentLinksByNodeId k) :
    l ∈ getL (processFieldLinks table field acc).dependentLinksByNodeId k := by
  cases htype : field.type with
  | multipleRecordLinks =>
      simp only [processFieldLinks, htype]
      by_cases hinv : field.options.inverseLinkFieldId ≠ ""
      · rw [if_pos hinv]
        cases objGet acc.linksById
            (createLinkId field.options.inverseLinkFieldId field.id) with
        | none => exact mem_getL_pushDependentLink _ _ h
        | some l2 => exact mem_getL_pushDependentLink _ _ h
      · rw [if_neg hinv]
        exact mem_getL_pushDependentLink _ _ h
  | formula =>
      simp only [processFieldLinks, htype]
      exact foldl_addReferencedFieldLink_deps_mono table field _ acc h
  | count =>
      simp only [processFieldLinks, htype]
      exact mem_getL_pushDependentLink _ _ (mem_getL_pushDependentLink _ _ h)
  | multipleLookupValues =>
      simp only [processFieldLinks, htype]
      exact addRecordLinkLinks_deps_mono table field acc h
  | rollup =>
      simp only [processFieldLinks, htype]
      exact addRecordLinkLinks_deps_mono table field _
        (foldl_addReferencedFieldLink_deps_mono table field _ acc h)
  | other =>
      simpa only [processFieldLinks, htype] using h

theorem fieldStep_deps_mono (p : Table × Field) (acc : ParseAcc) {l : Link} {k : String}
    (h : l ∈ getL acc.dependentLinksByNodeId k) :
    l ∈ getL (fieldStep acc p).dependentLinksByNodeId k := by
  by_cases hv : p.2.options.isValid = false
  · simpa [fieldStep, hv] using h
  · simp only [fieldStep, hv, if_false]
    exact processFieldLinks_deps_mono p.1 p.2 acc h

theorem foldl_fieldStep_deps_mono (ps : List (Table × Field)) (acc : ParseAcc)
    {l : Link} {k : String} (h : l ∈ getL acc.dependentLinksByNodeId k) :
    l ∈ getL ((ps.foldl fieldStep acc)).dependentLinksByNodeId k := by
  induction ps generalizing acc with
  | nil => exact h
  | cons p t ih => exact ih (fieldStep acc p) (fieldStep_deps_mono p acc h)

/-! ## The three `MULTIPLE_RECORD_LINKS` branches of `fieldStep` -/

theorem fieldStep_mrl_reuse (p : Table × Field) (acc : ParseAcc) (l : Link)
    (htype : p.2.type = .multipleRecordLinks)
    (hvalid : p.2.options.isValid = true)
    (hinv : p.2.options.inverseLinkFieldId ≠ "")
    (hfound : objGet acc.linksById
      (createLinkId p.2.options.inverseLinkFieldId p.2.id) = some l) :
    fieldStep acc p =
      ⟨acc.linksById,
        pushDependentLink acc.dependentLinksByNodeId p.2.id l⟩ := by
  simp only [fieldStep, hvalid, Bool.true_eq_false, if_false,
    processFieldLinks, htype]
  rw [if_pos hinv, hfound]

theorem fieldStep_mrl_create (p : Table × Field) (acc : ParseAcc)
    (htype : p.2.type = .multipleRecordLinks)
    (hvalid : p.2.options.isValid = true)
    (hinv : p.2.options.inverseLinkFieldId ≠ "")
    (hnone : objGet acc.linksById
      (createLinkId p.2.options.inverseLinkFieldId p.2.id) = none) :
    fieldStep acc p =
      ⟨objSet acc.linksById (createLinkId p.2.id p.2.options.inverseLinkFieldId)
        { id := createLinkId p.2.id p.2.options.inverseLinkFieldId
          sourceId := p.2.id
          sourceTableId := p.1.id
          targetId := p.2.options.inverseLinkFieldId
          targetTableId := p.2.options.linkedTableId
          type := .multipleRecordLinks
          tooltipLabel := some "Linked record" },
        pushDependentLink acc.dependentLinksByNodeId p.2.id
          { id := createLinkId p.2.id p.2.options.inverseLinkFieldId
            sourceId := p.2.id
            sourceTableId := p.1.id
            targetId := p.2.options.inverseLinkFieldId
            targetTableId := p.2.options.linkedTableId
            type := .multipleRecordLinks
            tooltipLabel := some "Linked record" }⟩ := by
  simp only [fieldStep, hvalid, Bool.true_eq_false, if_false,
    processFieldLinks, htype]
  rw [if_pos hinv, hnone]
  simp [htype, LINK_LABELS_BY_TYPE]

theorem fieldStep_mrl_self (p : Table × Field) (acc : ParseAcc)
    (htype : p.2.type = .multipleRecordLinks)
    (hvalid : p.2.options.isValid = true)
    (hinv : p.2.options.inverseLinkFieldId = "") :
    fieldStep acc p =
      ⟨objSet acc.linksById (createLinkId p.2.id p.2.options.linkedTableId)
        { id := createLinkId p.2.id p.2.options.linkedTableId
          sourceId := p.2.id
          sourceTableId := p.1.id
          targetId := p.2.options.linkedTableId
          targetTableId := p.2.options.linkedTableId
          type := .multipleRecordLinks
          tooltipLabel := some "Linked record" },
        pushDependentLink acc.dependentLinksByNodeId p.2.id
          { id := createLinkId p.2.id p.2.options.linkedTableId
            sourceId := p.2.id
            sourceTableId := p.1.id
            targetId := p.2.options.linkedTableId
            targetTableId := p.2.options.linkedTableId
            type := .multipleRecordLinks
            tooltipLabel := some "Linked record" }⟩ := by
  simp only [fieldStep, hvalid, Bool.true_eq_false, if_false,
    processFieldLinks, htype]
  rw [if_neg (by simp [hinv])]
  simp [htype, LINK_LABELS_BY_TYPE]

/-! ## `linksById` stores every link under its own id, with distinct keys -/

theorem linkMapWF_objSet {m : Obj Link} (l : Link) (h : linkMapWF m) :
    linkMapWF (objSet m l.id l) := by
  refine ⟨keys_nodup_objSet _ _ h.1, fun p hp => ?_⟩
  rcases mem_objSet hp with h2 | h2
  · rw [h2]
  · exact h.2 p h2

theorem linkMapWF_objSet_key {m : Obj Link} {k : String} (l : Link)
    (hk : l.id = k) (h : linkMapWF m) : linkMapWF (objSet m k l) := by
  subst hk
  exact linkMapWF_objSet l h

theorem foldl_addReferencedFieldLink_WF (table : Table) (field : Field)
    (ids : List String) (acc : ParseAcc) (h : linkMapWF acc.linksById) :
    linkMapWF ((ids.foldl (addReferencedFieldLink table field) acc)).linksById := by
  induction ids generalizing acc with
  | nil => exact h
  | cons i t ih =>
      exact ih (addReferencedFieldLink table field acc i) (linkMapWF_objSet_key _ rfl h)

theorem addRecordLinkLinks_WF (table : Table) (field : Field) (acc : ParseAcc)
    (h : linkMapWF acc.linksById) :
    linkMapWF (addRecordLinkLinks table field acc).linksById := by
  simp only [addRecordLinkLinks]
  cases table.getFieldByIdIfExists field.options.recordLinkFieldId with
  | none =>
      dsimp only
      exact linkMapWF_objSet_key _ rfl h
  | some recordLinkField =>
      dsimp only
      exact linkMapWF_objSet_key _ rfl (linkMapWF_objSet_key _ rfl h)

theorem processFieldLinks_WF (table : Table) (field : Field) (acc : ParseAcc)
    (h : linkMapWF acc.linksById) :
    linkMapWF (processFieldLinks table field acc).linksById := by
  cases htype : field.type with
  | multipleRecordLinks =>
      simp only [processFieldLinks, htype]
      by_cases hinv : field.options.inverseLinkFieldId ≠ ""
      · rw [if_pos hinv]
        cases objGet acc.linksById
            (createLinkId field.options.inverseLinkFieldId field.id) with
        | none =>
            dsimp only
            exact linkMapWF_objSet_key _ rfl h
        | some l => exact h
      · rw [if_neg hinv]
        exact linkMapWF_objSet_key _ rfl h
  | formula =>
      simp only [processFieldLinks, htype]
      exact foldl_addReferencedFieldLink_WF table field _ acc h
  | count =>
      simp only [processFieldLinks, htype]
      exact linkMapWF_objSet_key _ rfl h
  | multipleLookupValues =>
      simp only [processFieldLinks, htype]
      exact addRecordLinkLinks_WF table field acc h
  | rollup =>
      simp only [processFieldLinks, htype]
      exact addRecordLinkLinks_WF table field _
        (foldl_addReferencedFieldLink_WF table field _ acc h)
  | other =>
      simpa only [processFieldLinks, htype] using h

theorem fieldStep_WF (p : Table × Field) (acc : ParseAcc)
    (h : linkMapWF acc.linksById) : linkMapWF (fieldStep acc p).linksById := by
  by_cases hv : p.2.options.isValid = false
  · simpa [fieldStep, hv] using h
  · simp only [fieldStep, hv, if_false]
    exact processFieldLinks_WF p.1 p.2 acc h

theorem foldl_fieldStep_WF (ps : List (Table × Field)) (acc : ParseAcc)
    (h : linkMapWF acc.linksById) :
    linkMapWF ((ps.foldl fieldStep acc)).linksById := by
  induction ps generalizing acc with
  | nil => exact h
  | cons p t ih => exact ih (fieldStep acc p) (fieldStep_WF p acc h)

theorem parseTables_WF (tables : List Table) :
    linkMapWF (parseTables tables).linksById := by
  have h : (parseTables tables).linksById =
      ((fieldPairs tables).foldl fieldStep ⟨[], []⟩).linksById :=
    congrArg ParseAcc.linksById (parseTables_acc tables)
  rw [h]
  exact foldl_fieldStep_WF _ _ ⟨List.nodup_nil, by simp⟩

/-- The no-duplicate-id invariant survives the defensive filter. -/
theorem parseSchema_WF (base : Base) : linkMapWF (parseSchema base).linksById := by
  obtain ⟨h1, h2⟩ := parseTables_WF base.tables
  have hL : (parseSchema base).linksById =
      filterLinks (parseTables base.tables).linksById (parseTables base.tables).nodesById := rfl
  rw [hL]
  simp only [filterLinks]
  constructor
  · exact List.Nodup.sublist (List.Sublist.map _ (List.filter_sublist _)) h1
  · exact fun p hp => h2 p (List.mem_of_mem_filter hp)

/-! ## The node set of the first pass covers every table id and field id -/

theorem processField_nodes (table : Table) (s : ParseState × List Node) (field : Field) :
    (processField table s field).1.nodesById =
      objSet s.1.nodesById field.id
        { id := field.id, name := field.name, type := "field",
          tableName := table.name, tableId := table.id,
          tooltipLabel := FIELD_LABELS_BY_TYPE field.type } := by
  by_cases hv : field.options.isValid = false <;> simp [processField, hv]

theorem foldl_processField_nodes_mono (table : Table) (fields : List Field)
    (s : ParseState × List Node) (k : String)
    (h : (objGet s.1.nodesById k).isSome = true) :
    (objGet ((fields.foldl (processField table) s).1).nodesById k).isSome = true := by
  induction fields generalizing s with
  | nil => exact h
  | cons f t ih =>
      refine ih (processField table s f) ?_
      rw [processField_nodes]
      exact objGet_isSome_objSet _ _ _ _ h

theorem foldl_processField_nodes_self (table : Table) (fields : List Field)
    (s : ParseState × List Node) (f : Field) (hf : f ∈ fields) :
    (objGet ((fields.foldl (processField table) s).1).nodesById f.id).isSome = true := by
  induction fields generalizing s with
  | nil => simp at hf
  | cons g t ih =>
      rcases List.mem_cons.mp hf with h2 | h2
      · subst h2
        refine foldl_processField_nodes_mono table t _ f.id ?_
        rw [processField_nodes]
        rw [objGet_objSet_self]
        rfl
      · exact ih _ h2

theorem processTable_nodes_mono (st : ParseState) (table : Table) (k : String)
    (h : (objGet st.nodesById k).isSome = true) :
    (objGet (processTable st table).nodesById k).isSome = true := by
  simp only [processTable]
  exact objGet_isSome_objSet _ _ _ _
    (foldl_processField_nodes_mono table table.fields (st, []) k h)

theorem processTable_nodes_self (st : ParseState) (table : Table) :
    (objGet (processTable st table).nodesById table.id).isSome = true := by
  simp only [processTable]
  rw [objGet_objSet_self]
  rfl

theorem processTable_nodes_field (st : ParseState) (table : Table) (f : Field)
    (hf : f ∈ table.fields) :
    (objGet (processTable st table).nodesById f.id).isSome = true := by
  simp only [processTable]
  exact objGet_isSome_objSet _ _ _ _
    (foldl_processField_nodes_self table table.fields (st, []) f hf)

theorem foldl_processTable_nodes_mono (tables : List Table) (st : ParseState)
    (k : String) (h : (objGet st.nodesById k).isSome = true) :
    (objGet ((tables.foldl processTable st)).nodesById k).isSome = true := by
  induction tables generalizing st with
  | nil => exact h
  | cons t ts ih => exact ih (processTable st t) (processTable_nodes_mono st t k h)

theorem foldl_processTable_nodes_table (tables : List Table) (st : ParseState)
    (t : Table) (ht : t ∈ tables) :
    (objGet ((tables.foldl processTable st)).nodesById t.id).isSome = true := by
  induction tables generalizing st with
  | nil => simp at ht
  | cons u ts ih =>
      rcases List.mem_cons.mp ht with h2 | h2
      · subst h2
        exact foldl_processTable_nodes_mono ts _ t.id (processTable_nodes_self st t)
      · exact ih _ h2

theorem foldl_processTable_nodes_field (tables : List Table) (st : ParseState)
    (t : Table) (f : Field) (ht : t ∈ tables) (hf : f ∈ t.fields) :
    (objGet ((tables.foldl processTable st)).nodesById f.id).isSome = true := by
  induction tables generalizing st with
  | nil => simp at ht
  | cons u ts ih =>
      rcases List.mem_cons.mp ht with h2 | h2
      · subst h2
        exact foldl_processTable_nodes_mono ts _ f.id (processTable_nodes_field st t f hf)
      · exact ih _ h2

theorem parseTables_nodes_table (tables : List Table) (t : Table) (ht : t ∈ tables) :
    objHas (parseTables tables).nodesById t.id = true :=
  foldl_processTable_nodes_table tables ⟨[], [], [], []⟩ t ht

theorem parseTables_nodes_field (tables : List Table) (t : Table) (f : Field)
    (ht : t ∈ tables) (hf : f ∈ t.fields) :
    objHas (parseTables tables).nodesById f.id = true :=
  foldl_processTable_nodes_field tables ⟨[], [], [], []⟩ t f ht hf

/-! ## C5 — self-referencing linked-record fields target the table header -/

theorem nodup_split_facts {pre suf : List (Table × Field)} {p : Table × Field}
    (hnd : ((pre ++ p :: suf).map (fun q => q.2.id)).Nodup) :
    (∀ q ∈ pre, q.2.id ≠ p.2.id) ∧ (∀ q ∈ suf, q.2.id ≠ p.2.id) := by
  simp only [List.map_append, List.map_cons] at hnd
  rw [List.nodup_append] at hnd
  obtain ⟨h1, h2, hdisj⟩ := hnd
  rw [List.nodup_cons] at h2
  constructor
  · intro q hq heq
    exact hdisj (List.mem_map_of_mem _ hq) (by simp [heq])
  · intro q hq heq
    exact h2.1 (heq ▸ List.mem_map_of_mem (fun q => q.2.id) hq)

theorem classifyLinkCoords_target_y (s t : Coords) :
    (classifyLinkCoords s t).targetCoords.y = t.y := by
  unfold classifyLinkCoords
  split_ifs <;> rfl

/-- When a link's target id equals its target table id (the self-link
marker), the router resolves the target to the header row (row 0): the target
y is the table's y plus only the border and half a row height. -/
theorem calculateLinkCoords_selfTarget_y (link : Link) (tableCoordsByTableId : Obj Coords)
    (tableConfigsByTableId : Obj TableConfig) (r : LinkCoords) (c : Coords)
    (hself : link.targetId = link.targetTableId)
    (ht : objGet tableCoordsByTableId link.targetTableId = some c)
    (hr : calculateLinkCoords link tableCoordsByTableId tableConfigsByTableId = .ok r) :
    r.targetCoords.y = c.y + TABLE_BORDER_WIDTH + ROW_HEIGHT / 2 := by
  unfold calculateLinkCoords at hr
  rw [ht] at hr
  cases hs : objGet tableCoordsByTableId link.sourceTableId with
  | none =>
      rw [hs] at hr
      simp only [fromOption, ok_bind, error_bind] at hr
      exact Except.noConfusion hr
  | some sc =>
      rw [hs] at hr
      simp only [fromOption, ok_bind] at hr
      cases hc1 : objGet tableConfigsByTableId link.sourceTableId with
      | none =>
          rw [hc1] at hr
          simp only [fromOption, ok_bind, error_bind] at hr
          exact Except.noConfusion hr
      | some scfg =>
          rw [hc1] at hr
          simp only [fromOption, ok_bind] at hr
          cases hidx : scfg.fieldNodes.findIdx? (fun n => n.id == link.sourceId) with
          | none =>
              rw [hidx] at hr
              simp only [fromOption, ok_bind, error_bind] at hr
              exact Except.noConfusion hr
          | some i =>
              rw [hidx] at hr
              simp only [fromOption, ok_bind] at hr
              cases hc2 : objGet tableConfigsByTableId link.targetTableId with
              | none =>
                  rw [hc2] at hr
                  simp only [fromOption, ok_bind, error_bind] at hr
                  exact Except.noConfusion hr
              | some tcfg =>
                  rw [hc2] at hr
                  simp only [fromOption, ok_bind] at hr
                  rw [if_pos hself] at hr
                  simp only [fromOption, ok_bind, error_bind, pure_eq_ok] at hr
                  obtain rfl := (Except.ok.inj hr).symm
                  rw [classifyLinkCoords_target_y]
                  ring

/-- C5: a valid linked-record field with no inverse field id whose
`linkedTableId` is its own table emits exactly one link, stored under
`createLinkId field.id table.id`, whose `targetId = targetTableId = table.id`
(the table header node); it survives the defensive filter, the final link set
has pairwise-distinct ids, and the router resolves any such self-target to
the header row. -/
theorem parseSchema_self_link (base : Base) (pre suf : List (Table × Field))
    (t : Table) (f : Field)
    (hsplit : fieldPairs base.tables = pre ++ (t, f) :: suf)
    (htype : f.type = .multipleRecordLinks)
    (hvalid : f.options.isValid = true)
    (hinv : f.options.inverseLinkFieldId = "")
    (hlinked : f.options.linkedTableId = t.id)
    (hnd : ((fieldPairs base.tables).map (fun q => q.2.id)).Nodup)
    (hus : ∀ q ∈ fieldPairs base.tables, '_' ∉ q.2.id.data) :
    objGet (parseSchema base).linksById (createLinkId f.id t.id) =
      some { id := createLinkId f.id t.id, sourceId := f.id, sourceTableId := t.id,
             targetId := t.id, targetTableId := t.id,
             type := .multipleRecordLinks, tooltipLabel := some "Linked record" } ∧
    ((parseSchema base).linksById.map Prod.fst).Nodup ∧
    (∀ link : Link, ∀ tc : Obj Coords, ∀ cfg : Obj TableConfig,
      ∀ r : LinkCoords, ∀ c : Coords,
      link.targetId = link.targetTableId →
      objGet tc link.targetTableId = some c →
      calculateLinkCoords link tc cfg = .ok r →
      r.targetCoords.y = c.y + TABLE_BORDER_WIDTH + ROW_HEIGHT / 2) := by
  have hmem : (t, f) ∈ fieldPairs base.tables := by
    rw [hsplit]
    exact List.mem_append_right _ (List.mem_cons_self _ _)
  have htmem : t ∈ base.tables := (mem_fieldPairs hmem).1
  have hfus : '_' ∉ f.id.data := hus (t, f) hmem
  have hnd2 : ((pre ++ (t, f) :: suf).map (fun q => q.2.id)).Nodup := by
    rw [← hsplit]; exact hnd
  obtain ⟨hpre, hsuf⟩ := nodup_split_facts hnd2
  have hus2 : ∀ q ∈ pre ++ (t, f) :: suf, '_' ∉ q.2.id.data :=
    fun q hq => hus q (by rw [hsplit]; exact hq)
  have hkey : ∀ q : Table × Field, q.2.id ≠ f.id → '_' ∉ q.2.id.data →
      ∀ x, createLinkId f.id t.id ≠ createLinkId q.2.id x :=
    fun q hq hq2 _ => createLinkId_ne_of_ne hfus hq2 (Ne.symm hq)
  -- the accumulator after the whole first pass
  have hacc := parseTables_acc base.tables
  rw [hsplit, List.foldl_append, List.foldl_cons] at hacc
  -- before (t, f): the key is unbound
  have h0 : objGet ((pre.foldl fieldStep ⟨[], []⟩)).linksById
      (createLinkId f.id t.id) = none := by
    rw [foldl_fieldStep_links_get pre _ (fun q hq => hkey q (hpre q hq)
      (hus2 q (List.mem_append_left _ hq)))]
    rfl
  -- at (t, f): the self link is created
  have hstep := fieldStep_mrl_self (t, f) (pre.foldl fieldStep ⟨[], []⟩) htype hvalid hinv
  dsimp only at hstep
  rw [hlinked] at hstep
  have h1 : objGet ((fieldStep (pre.foldl fieldStep ⟨[], []⟩) (t, f))).linksById
      (createLinkId f.id t.id) =
      some { id := createLinkId f.id t.id, sourceId := f.id, sourceTableId := t.id,
             targetId := t.id, targetTableId := t.id,
             type := .multipleRecordLinks, tooltipLabel := some "Linked record" } := by
    rw [hstep]
    exact objGet_objSet_self _ _ _
  -- after (t, f): the binding is preserved
  have h2 : objGet (((parseTables base.tables).acc).linksById) (createLinkId f.id t.id) =
      some { id := createLinkId f.id t.id, sourceId := f.id, sourceTableId := t.id,
             targetId := t.id, targetTableId := t.id,
             type := .multipleRecordLinks, tooltipLabel := some "Linked record" } := by
    rw [hacc]
    rw [foldl_fieldStep_links_get suf _ (fun q hq => hkey q (hsuf q hq)
      (hus2 q (List.mem_append_right _ (List.mem_cons_of_mem _ hq))))]
    exact h1
  -- the defensive filter keeps it: both targets are the table node
  have hT : objHas (parseTables base.tables).nodesById t.id = true :=
    parseTables_nodes_table _ t htmem
  refine ⟨?_, (parseSchema_WF base).1, fun link tc cfg r c h1' h2' h3' =>
    calculateLinkCoords_selfTarget_y link tc cfg r c h1' h2' h3'⟩
  have hL : (parseSchema base).linksById =
      filterLinks (parseTables base.tables).linksById (parseTables base.tables).nodesById := rfl
  rw [hL]
  simp only [filterLinks]
  exact objGet_filter_of_pred h2 (by simp [hT])

/-- C5 witness: the concrete self-referencing snapshot satisfies every
hypothesis and its parse contains the header-targeting link. -/
theorem parseSchema_self_link_witness :
    fieldPairs exSelfBase.tables = [] ++ (exSelfTable, exSelfField) :: [] ∧
    objGet (parseSchema exSelfBase).linksById (createLinkId "fldS" "tbl1") =
      some exSelfLink := by
  refine ⟨by decide, ?_⟩
  exact (parseSchema_self_link exSelfBase [] [] exSelfTable exSelfField (by decide)
    (by decide) (by decide) (by decide) (by decide) (by decide) (by decide)).1

/-! ## C1 — one link per bidirectional linked-record pair -/

theorem aggregateTableDeps_get_ne (tables : List Table) (deps : Obj (List Link))
    (k : String) (h : ∀ u ∈ tables, u.id ≠ k) :
    objGet (aggregateTableDeps tables deps) k = objGet deps k := by
  induction tables generalizing deps with
  | nil => rfl
  | cons u ts ih =>
      simp only [aggregateTableDeps, List.foldl_cons]
      rw [show (ts.foldl _ _ : Obj (List Link)) = aggregateTableDeps ts
        (objSet deps u.id (u.fields.foldl (fun result field =>
          match objGet deps field.id with
          | some links => result ++ links
          | none => result) [])) from rfl]
      rw [ih _ (fun v hv => h v (List.mem_cons_of_mem _ hv))]
      exact objGet_objSet_ne _ _ (h u (List.mem_cons_self _ _))

/-- C1: for a bidirectional linked-record pair `(f, g)` with reciprocal
options, exactly one link is materialized.  The earlier field `f` creates the
link with id `createLinkId f.id g.id`; when the mirror `g` is reached, the
mirror's link id (`createLinkId` of its inverse field and itself) is already
present, so `g` reuses that link and only registers it in the reverse index —
`createLinkId g.id f.id` is never bound.  The final link set stores every
link under its own id with pairwise-distinct keys, so no two links share an
id. -/
theorem parseSchema_bidirectional_pair (base : Base)
    (pre mid suf : List (Table × Field)) (tf tg : Table) (f g : Field)
    (hsplit : fieldPairs base.tables = pre ++ (tf, f) :: mid ++ (tg, g) :: suf)
    (hft : f.type = .multipleRecordLinks) (hgt : g.type = .multipleRecordLinks)
    (hfv : f.options.isValid = true) (hgv : g.options.isValid = true)
    (hfinv : f.options.inverseLinkFieldId = g.id)
    (hginv : g.options.inverseLinkFieldId = f.id)
    (hflink : f.options.linkedTableId = tg.id)
    (hfne : f.id ≠ "") (hgne : g.id ≠ "")
    (hgnotT : ∀ u ∈ base.tables, u.id ≠ g.id)
    (hnd : ((fieldPairs base.tables).map (fun q => q.2.id)).Nodup)
    (hus : ∀ q ∈ fieldPairs base.tables, '_' ∉ q.2.id.data) :
    objGet (parseSchema base).linksById (createLinkId f.id g.id) =
      some { id := createLinkId f.id g.id, sourceId := f.id, sourceTableId := tf.id,
             targetId := g.id, targetTableId := tg.id,
             type := .multipleRecordLinks, tooltipLabel := some "Linked record" } ∧
    objGet (parseSchema base).linksById (createLinkId g.id f.id) = none ∧
    ({ id := createLinkId f.id g.id, sourceId := f.id, sourceTableId := tf.id,
       targetId := g.id, targetTableId := tg.id,
       type := .multipleRecordLinks, tooltipLabel := some "Linked record" } : Link) ∈
      getL (parseSchema base).dependentLinksByNodeId g.id ∧
    ((parseSchema base).linksById.map Prod.fst).Nodup ∧
    (∀ p ∈ (parseSchema base).linksById, p.2.id = p.1) := by
  have hsplit1 : fieldPairs base.tables = pre ++ (tf, f) :: (mid ++ (tg, g) :: suf) := by
    rw [hsplit, List.append_assoc, List.cons_append]
  have hsplit2 : fieldPairs base.tables = (pre ++ (tf, f) :: mid) ++ (tg, g) :: suf := by
    rw [hsplit]
  have hmemF : (tf, f) ∈ fieldPairs base.tables := by
    rw [hsplit1]
    exact List.mem_append_right _ (List.mem_cons_self _ _)
  have hmemG : (tg, g) ∈ fieldPairs base.tables := by
    rw [hsplit2]
    exact List.mem_append_right _ (List.mem_cons_self _ _)
  have htfmem : tf ∈ base.tables := (mem_fieldPairs hmemF).1
  have htgmem : tg ∈ base.tables := (mem_fieldPairs hmemG).1
  have hgfield : g ∈ tg.fields := (mem_fieldPairs hmemG).2
  have hfus : '_' ∉ f.id.data := hus (tf, f) hmemF
  have hgus : '_' ∉ g.id.data := hus (tg, g) hmemG
  -- distinctness facts from the Nodup hypothesis
  obtain ⟨hpreF, hrestF⟩ := nodup_split_facts (p := (tf, f))
    (by rw [← hsplit1]; exact hnd)
  obtain ⟨hpremidG, hsufG⟩ := nodup_split_facts (p := (tg, g))
    (by rw [← hsplit2]; exact hnd)
  have hmidF : ∀ q ∈ mid, q.2.id ≠ f.id :=
    fun q hq => hrestF q (List.mem_append_left _ hq)
  have hsufF : ∀ q ∈ suf, q.2.id ≠ f.id :=
    fun q hq => hrestF q (List.mem_append_right _ (List.mem_cons_of_mem _ hq))
  have hgf : g.id ≠ f.id :=
    hrestF (tg, g) (List.mem_append_right _ (List.mem_cons_self _ _))
  have hpreG : ∀ q ∈ pre, q.2.id ≠ g.id :=
    fun q hq => hpremidG q (List.mem_append_left _ hq)
  have hmidG : ∀ q ∈ mid, q.2.id ≠ g.id :=
    fun q hq => hpremidG q (List.mem_append_right _ (List.mem_cons_of_mem _ hq))
  have hfg : f.id ≠ g.id := Ne.symm hgf
  have husAll : ∀ q ∈ fieldPairs base.tables, '_' ∉ q.2.id.data := hus
  have husPre : ∀ q ∈ pre, '_' ∉ q.2.id.data :=
    fun q hq => hus q (by rw [hsplit1]; exact List.mem_append_left _ hq)
  have husMid : ∀ q ∈ mid, '_' ∉ q.2.id.data :=
    fun q hq => hus q (by
      rw [hsplit1]
      exact List.mem_append_right _ (List.mem_cons_of_mem _ (List.mem_append_left _ hq)))
  have husSuf : ∀ q ∈ suf, '_' ∉ q.2.id.data :=
    fun q hq => hus q (by
      rw [hsplit2]
      exact List.mem_append_right _ (List.mem_cons_of_mem _ hq))
  -- keys that no other field's step can write
  have hkeyF : ∀ q : Table × Field, q.2.id ≠ f.id → '_' ∉ q.2.id.data →
      ∀ x, createLinkId f.id g.id ≠ createLinkId q.2.id x :=
    fun q hq hq2 _ => createLinkId_ne_of_ne hfus hq2 (Ne.symm hq)
  have hkeyG : ∀ q : Table × Field, q.2.id ≠ g.id → '_' ∉ q.2.id.data →
      ∀ x, createLinkId g.id f.id ≠ createLinkId q.2.id x :=
    fun q hq hq2 _ => createLinkId_ne_of_ne hgus hq2 (Ne.symm hq)
  -- the accumulator chain
  have hacc := parseTables_acc base.tables
  rw [hsplit1, List.foldl_append, List.foldl_cons, List.foldl_append,
    List.foldl_cons] at hacc
  -- before (tf, f): neither candidate key is bound
  have h0GF : objGet ((pre.foldl fieldStep ⟨[], []⟩)).linksById
      (createLinkId g.id f.id) = none := by
    rw [foldl_fieldStep_links_get pre _ (fun q hq => hkeyG q (hpreG q hq) (husPre q hq))]
    rfl
  have h0FG : objGet ((pre.foldl fieldStep ⟨[], []⟩)).linksById
      (createLinkId f.id g.id) = none := by
    rw [foldl_fieldStep_links_get pre _ (fun q hq => hkeyF q (hpreF q hq) (husPre q hq))]
    rfl
  -- (tf, f): the mirror's id is unbound, so f creates the link
  have hstepf := fieldStep_mrl_create (tf, f) (pre.foldl fieldStep ⟨[], []⟩) hft hfv
    (by dsimp only; rw [hfinv]; exact hgne)
    (by dsimp only; rw [hfinv]; exact h0GF)
  dsimp only at hstepf
  rw [hfinv, hflink] at hstepf
  have hKK : createLinkId f.id g.id ≠ createLinkId g.id f.id :=
    createLinkId_ne_of_ne hfus hgus hfg
  have h1FG : objGet ((fieldStep (pre.foldl fieldStep ⟨[], []⟩) (tf, f))).linksById
      (createLinkId f.id g.id) =
      some { id := createLinkId f.id g.id, sourceId := f.id, sourceTableId := tf.id,
             targetId := g.id, targetTableId := tg.id,
             type := .multipleRecordLinks, tooltipLabel := some "Linked record" } := by
    rw [hstepf]
    exact objGet_objSet_self _ _ _
  have h1GF : objGet ((fieldStep (pre.foldl fieldStep ⟨[], []⟩) (tf, f))).linksById
      (createLinkId g.id f.id) = none := by
    rw [hstepf]
    dsimp only
    rw [objGet_objSet_ne _ _ hKK]
    exact h0GF
  -- through mid: both bindings are preserved
  have h2FG : objGet ((mid.foldl fieldStep
      (fieldStep (pre.foldl fieldStep ⟨[], []⟩) (tf, f)))).linksById
      (createLinkId f.id g.id) =
      some { id := createLinkId f.id g.id, sourceId := f.id, sourceTableId := tf.id,
             targetId := g.id, targetTableId := tg.id,
             type := .multipleRecordLinks, tooltipLabel := some "Linked record" } := by
    rw [foldl_fieldStep_links_get mid _ (fun q hq => hkeyF q (hmidF q hq) (husMid q hq))]
    exact h1FG
  have h2GF : objGet ((mid.foldl fieldStep
      (fieldStep (pre.foldl fieldStep ⟨[], []⟩) (tf, f)))).linksById
      (createLinkId g.id f.id) = none := by
    rw [foldl_fieldStep_links_get mid _ (fun q hq => hkeyG q (hmidG q hq) (husMid q hq))]
    exact h1GF
  -- (tg, g): the mirror's link exists, so g reuses it (no new link)
  have hstepg := fieldStep_mrl_reuse (tg, g)
    (mid.foldl fieldStep (fieldStep (pre.foldl fieldStep ⟨[], []⟩) (tf, f)))
    { id := createLinkId f.id g.id, sourceId := f.id, sourceTableId := tf.id,
      targetId := g.id, targetTableId := tg.id,
      type := .multipleRecordLinks, tooltipLabel := some "Linked record" }
    hgt hgv
    (by dsimp only; rw [hginv]; exact hfne)
    (by dsimp only; rw [hginv]; exact h2FG)
  dsimp only at hstepg
  have h3FG : objGet ((fieldStep (mid.foldl fieldStep
      (fieldStep (pre.foldl fieldStep ⟨[], []⟩) (tf, f))) (tg, g))).linksById
      (createLinkId f.id g.id) =
      some { id := createLinkId f.id g.id, sourceId := f.id, sourceTableId := tf.id,
             targetId := g.id, targetTableId := tg.id,
             type := .multipleRecordLinks, tooltipLabel := some "Linked record" } := by
    rw [hstepg]
    exact h2FG
  have h3GF : objGet ((fieldStep (mid.foldl fieldStep
      (fieldStep (pre.foldl fieldStep ⟨[], []⟩) (tf, f))) (tg, g))).linksById
      (createLinkId g.id f.id) = none := by
    rw [hstepg]
    exact h2GF
  have h3dep :
      ({ id := createLinkId f.id g.id, sourceId := f.id,
         sourceTableId := tf.id, targetId := g.id, targetTableId := tg.id,
         type := .multipleRecordLinks, tooltipLabel := some "Linked record" } : Link) ∈
      getL ((fieldStep (mid.foldl fieldStep
        (fieldStep (pre.foldl fieldStep ⟨[], []⟩) (tf, f))) (tg, g))).dependentLinksByNodeId
        g.id := by
    rw [hstepg]
    exact self_mem_getL_pushDependentLink _ _ _
  -- through suf
  have h4FG : objGet (((parseTables base.tables).acc).linksById)
      (createLinkId f.id g.id) =
      some { id := createLinkId f.id g.id, sourceId := f.id, sourceTableId := tf.id,
             targetId := g.id, targetTableId := tg.id,
             type := .multipleRecordLinks, tooltipLabel := some "Linked record" } := by
    rw [hacc]
    rw [foldl_fieldStep_links_get suf _ (fun q hq => hkeyF q
      (hsufF q hq) (husSuf q hq))]
    exact h3FG
  have h4GF : objGet (((parseTables base.tables).acc).linksById)
      (createLinkId g.id f.id) = none := by
    rw [hacc]
    rw [foldl_fieldStep_links_get suf _ (fun q hq => hkeyG q
      (hsufG q hq) (husSuf q hq))]
    exact h3GF
  have h4dep :
      ({ id := createLinkId f.id g.id, sourceId := f.id,
         sourceTableId := tf.id, targetId := g.id, targetTableId := tg.id,
         type := .multipleRecordLinks, tooltipLabel := some "Linked record" } : Link) ∈
      getL (((parseTables base.tables).acc).dependentLinksByNodeId) g.id := by
    rw [hacc]
    exact foldl_fieldStep_deps_mono suf _ h3dep
  -- the filter keeps the link: target table node and target field node exist
  have hTT : objHas (parseTables base.tables).nodesById tg.id = true :=
    parseTables_nodes_table _ tg htgmem
  have hTG : objHas (parseTables base.tables).nodesById g.id = true :=
    parseTables_nodes_field _ tg g htgmem hgfield
  have hL : (parseSchema base).linksById =
      filterLinks (parseTables base.tables).linksById (parseTables base.tables).nodesById := rfl
  have hD : (parseSchema base).dependentLinksByNodeId =
      aggregateTableDeps base.tables (parseTables base.tables).dependentLinksByNodeId := rfl
  refine ⟨?_, ?_, ?_, (parseSchema_WF base).1, (parseSchema_WF base).2⟩
  · rw [hL]
    simp only [filterLinks]
    exact objGet_filter_of_pred h4FG (by simp [hTT, hTG])
  · rw [hL]
    simp only [filterLinks]
    exact objGet_filter_none h4GF
  · rw [hD]
    have := aggregateTableDeps_get_ne base.tables
      (parseTables base.tables).dependentLinksByNodeId g.id hgnotT
    unfold getL
    rw [this]
    exact h4dep

/-- C1 witness: the two-table mirrored snapshot satisfies every hypothesis;
exactly the link `fldA_fldB` is materialized, `fldB_fldA` is not, and the
reused link is registered in the reverse index of the second field. -/
theorem parseSchema_bidirectional_pair_witness :
    fieldPairs exBase.tables =
      [] ++ (exTable1, exFieldA) :: [] ++ (exTable2, exFieldB) :: [] ∧
    objGet (parseSchema exBase).linksById (createLinkId "fldA" "fldB") = some exLinkAB ∧
    objGet (parseSchema exBase).linksById (createLinkId "fldB" "fldA") = none ∧
    exLinkAB ∈ getL (parseSchema exBase).dependentLinksByNodeId "fldB" := by
  have h := parseSchema_bidirectional_pair exBase [] [] [] exTable1 exTable2
    exFieldA exFieldB (by decide) (by decide) (by decide) (by decide) (by decide)
    (by decide) (by decide) (by decide) (by decide) (by decide) (by decide)
    (by decide) (by decide)
  exact ⟨by decide, h.1, h.2.1, h.2.2.1⟩

/-! ## C10 — the filter does not touch the reverse index -/

/-! ## C6 — the columnar initial layout: helper lemmas -/

theorem getD_set_self (l : List ℚ) (i : ℕ) (v : ℚ) (h : i < l.length) :
    (l.set i v).getD i 0 = v := by
  induction l generalizing i with
  | nil => simp at h
  | cons a t ih =>
      cases i with
      | zero => rfl
      | succ j => exact ih j (by simpa using h)

theorem getD_set_ne (l : List ℚ) (i j : ℕ) (v : ℚ) (h : i ≠ j) :
    (l.set i v).getD j 0 = l.getD j 0 := by
  induction l generalizing i j with
  | nil => simp [List.set]
  | cons a t ih =>
      cases i with
      | zero =>
          cases j with
          | zero => exact absurd rfl h
          | succ j2 => rfl
      | succ i2 =>
          cases j with
          | zero => rfl
          | succ j2 => exact ih i2 j2 (fun e => h (by rw [e]))

theorem getD_replicate (k c : ℕ) : (List.replicate k (0 : ℚ)).getD c 0 = 0 := by
  induction k generalizing c with
  | zero => rfl
  | succ n ih =>
      cases c with
      | zero => rfl
      | succ c2 => exact ih c2

theorem columnLoad_append_single
    (l : List ((String × Coords) × (String × TableConfig)))
    (z : (String × Coords) × (String × TableConfig)) (xc : ℚ) :
    columnLoad (l ++ [z]) xc =
      columnLoad l xc +
        (if z.1.2.x = xc then tableHeightContribution z.2.2 else 0) := by
  simp only [columnLoad, List.filter_append]
  by_cases h : z.1.2.x = xc
  · simp [List.filter, h]
  · simp [List.filter, h]

theorem columnLoad_nonneg (l : List ((String × Coords) × (String × TableConfig)))
    (xc : ℚ) : 0 ≤ columnLoad l xc := by
  unfold columnLoad
  apply List.sum_nonneg
  intro x hx
  obtain ⟨q, hq, rfl⟩ := List.mem_map.mp hx
  unfold tableHeightContribution ROW_HEIGHT TABLE_GUTTER_SIZE
  positivity

theorem columnLoad_pos_exists
    (l : List ((String × Coords) × (String × TableConfig))) (xc : ℚ)
    (h : 0 < columnLoad l xc) : ∃ q ∈ l, q.1.2.x = xc := by
  by_contra hne
  push_neg at hne
  have : l.filter (fun q => q.1.2.x = xc) = [] :=
    List.filter_eq_nil_iff.mpr (fun q hq => by simpa using hne q hq)
  rw [columnLoad, this] at h
  simp at h

theorem tableHeightContribution_pos (cfg : TableConfig) :
    0 < tableHeightContribution cfg := by
  unfold tableHeightContribution ROW_HEIGHT TABLE_GUTTER_SIZE
  positivity

theorem ceilSqrt_le_self (n : ℕ) : ceilSqrt n ≤ n := by
  unfold ceilSqrt
  by_cases h : Nat.sqrt n * Nat.sqrt n = n
  · rw [if_pos h]
    exact Nat.sqrt_le_self n
  · rw [if_neg h]
    have h1 : 1 < n := by
      rcases Nat.lt_or_ge n 2 with h2 | h2
      · interval_cases n <;> simp_all
      · exact h2
    exact Nat.sqrt_lt_self h1

theorem ceilSqrt_pos {n : ℕ} (h : 0 < n) : 0 < ceilSqrt n := by
  unfold ceilSqrt
  by_cases h2 : Nat.sqrt n * Nat.sqrt n = n
  · rw [if_pos h2]
    rcases Nat.eq_zero_or_pos (Nat.sqrt n) with h3 | h3
    · rw [h3] at h2
      omega
    · exact h3
  · rw [if_neg h2]
    exact Nat.succ_pos _

theorem getShortestColumnGo_bound (t : List ℚ) :
    ∀ (idx : ℕ) (cur : Option ℚ) (best : ℕ),
      getShortestColumnGo t idx cur best < idx + t.length ∨
      getShortestColumnGo t idx cur best = best := by
  induction t with
  | nil => exact fun idx cur best => Or.inr rfl
  | cons h tt ih =>
      intro idx cur best
      simp only [getShortestColumnGo]
      by_cases h0 : h = 0
      · rw [if_pos h0]
        exact Or.inl (by simp)
      · rw [if_neg h0]
        cases cur with
        | none =>
            dsimp only
            rcases ih (idx + 1) (some h) idx with h2 | h2
            · exact Or.inl (by simpa [Nat.add_comm, Nat.add_assoc,
                Nat.add_left_comm] using h2)
            · rw [h2]
              exact Or.inl (by simp)
        | some lowest =>
            dsimp only
            by_cases h3 : h < lowest
            · rw [if_pos h3]
              rcases ih (idx + 1) (some h) idx with h2 | h2
              · exact Or.inl (by simpa [Nat.add_comm, Nat.add_assoc,
                  Nat.add_left_comm] using h2)
              · rw [h2]
                exact Or.inl (by simp)
            · rw [if_neg h3]
              rcases ih (idx + 1) (some lowest) best with h2 | h2
              · exact Or.inl (by simpa [Nat.add_comm, Nat.add_assoc,
                  Nat.add_left_comm] using h2)
              · exact Or.inr h2

theorem getShortestColumn_lt (hs : List ℚ) (h : 0 < hs.length) :
    getShortestColumn hs < hs.length := by
  rcases getShortestColumnGo_bound hs 0 none 0 with h2 | h2
  · simpa using h2
  · rw [getShortestColumn, h2]
    exact h

theorem getShortestColumnGo_firstZero (t : List ℚ) :
    ∀ (j : ℕ), j < t.length → t.getD j 0 = 0 → (∀ i, i < j → t.getD i 0 ≠ 0) →
    ∀ (idx : ℕ) (cur : Option ℚ) (best : ℕ),
      getShortestColumnGo t idx cur best = idx + j := by
  induction t with
  | nil => intro j hj; simp at hj
  | cons h tt ih =>
      intro j hj hz hnz idx cur best
      cases j with
      | zero =>
          simp only [List.getD_cons_zero] at hz
          simp [getShortestColumnGo, hz]
      | succ j2 =>
          have hh : h ≠ 0 := by
            have := hnz 0 (Nat.succ_pos j2)
            simpa using this
          simp only [getShortestColumnGo, if_neg hh]
          have hrec := ih j2 (by simpa using hj) (by simpa using hz)
            (fun i hi => by simpa using hnz (i + 1) (Nat.succ_lt_succ hi))
          cases cur with
          | none =>
              dsimp only
              rw [hrec (idx + 1) (some h) idx]
              omega
          | some lowest =>
              dsimp only
              by_cases h3 : h < lowest
              · rw [if_pos h3, hrec (idx + 1) (some h) idx]
                omega
              · rw [if_neg h3, hrec (idx + 1) (some lowest) best]
                omega

theorem getShortestColumn_firstZero (hs : List ℚ) (j : ℕ) (hj : j < hs.length)
    (hz : hs.getD j 0 = 0) (hnz : ∀ i, i < j → hs.getD i 0 ≠ 0) :
    getShortestColumn hs = j := by
  rw [getShortestColumn, getShortestColumnGo_firstZero hs j hj hz hnz 0 none 0]
  omega

theorem yload_of_eq {l l2 : List ((String × Coords) × (String × TableConfig))}
    (h : l = l2)
    (hl : ∀ i, (hi : i < l.length) → (l.get ⟨i, hi⟩).1.2.y =
      columnLoad (l.take i) ((l.get ⟨i, hi⟩).1.2.x)) :
    ∀ i, (hi : i < l2.length) → (l2.get ⟨i, hi⟩).1.2.y =
      columnLoad (l2.take i) ((l2.get ⟨i, hi⟩).1.2.x) := by
  subst h
  exact hl

theorem yload_append (l : List ((String × Coords) × (String × TableConfig)))
    (z : (String × Coords) × (String × TableConfig))
    (hold : ∀ i, (hi : i < l.length) → (l.get ⟨i, hi⟩).1.2.y =
      columnLoad (l.take i) ((l.get ⟨i, hi⟩).1.2.x))
    (hz : z.1.2.y = columnLoad l z.1.2.x) :
    ∀ i, (hi : i < (l ++ [z]).length) → ((l ++ [z]).get ⟨i, hi⟩).1.2.y =
      columnLoad ((l ++ [z]).take i) (((l ++ [z]).get ⟨i, hi⟩).1.2.x) := by
  intro i hi
  by_cases hilt : i < l.length
  · rw [List.get_append _ hilt, List.take_append_of_le_length (le_of_lt hilt)]
    exact hold i hilt
  · have hieq : i = l.length := by
      simp only [List.length_append, List.length_singleton] at hi
      omega
    subst hieq
    rw [List.get_eq_getElem, List.getElem_concat_length l z l.length rfl,
      List.take_left]
    exact hz

theorem placeTableStep_eq (s : List ℚ × Obj Coords) (p : String × TableConfig) :
    placeTableStep s p =
      (s.1.set (getShortestColumn s.1)
        (s.1.getD (getShortestColumn s.1) 0 + tableHeightContribution p.2),
       objSet s.2 p.1
        ⟨(getShortestColumn s.1 : ℚ) * (ROW_WIDTH + TABLE_GUTTER_SIZE),
         s.1.getD (getShortestColumn s.1) 0⟩) := by
  simp only [placeTableStep, tableHeightContribution]

/-- One placement step preserves the layout invariant. -/
theorem placeTableStep_invariant (k : ℕ) (hk : 0 < k)
    (dcfgs : List (String × TableConfig)) (s : List ℚ × Obj Coords)
    (tid : String) (cfg : TableConfig)
    (hfresh : tid ∉ dcfgs.map Prod.fst) (inv : LayoutInv k dcfgs s) :
    LayoutInv k (dcfgs ++ [(tid, cfg)]) (placeTableStep s (tid, cfg)) := by
  have hlen2 : s.2.length = dcfgs.length := by
    simpa using congrArg List.length inv.keys
  have hlen1 : 0 < s.1.length := by rw [inv.len]; exact hk
  -- when there is still an empty column, the first one (index = number of
  -- placed tables) is selected
  have hfz : dcfgs.length < k → getShortestColumn s.1 = dcfgs.length := by
    intro hm
    have hz : s.1.getD dcfgs.length 0 = 0 :=
      inv.fillZero dcfgs.length hm (min_le_left _ _)
    have hnz : ∀ i, i < dcfgs.length → s.1.getD i 0 ≠ 0 := fun i hi =>
      ne_of_gt (inv.fillPos i (hi.trans hm) (lt_min hi (hi.trans hm)))
    exact getShortestColumn_firstZero s.1 dcfgs.length
      (by rw [inv.len]; exact hm) hz hnz
  have hj0 : getShortestColumn s.1 < k := by
    rcases Nat.lt_or_ge dcfgs.length k with hm | hm
    · rw [hfz hm]; exact hm
    · have h := getShortestColumn_lt s.1 hlen1
      rwa [inv.len] at h
  rw [placeTableStep_eq]
  have hset : objSet s.2 tid
      (⟨(getShortestColumn s.1 : ℚ) * (ROW_WIDTH + TABLE_GUTTER_SIZE),
        s.1.getD (getShortestColumn s.1) 0⟩ : Coords) =
      s.2 ++ [(tid, ⟨(getShortestColumn s.1 : ℚ) * (ROW_WIDTH + TABLE_GUTTER_SIZE),
        s.1.getD (getShortestColumn s.1) 0⟩)] :=
    objSet_of_not_mem_keys _ (by rw [inv.keys]; exact hfresh)
  rw [hset]
  have hzip : (s.2 ++ [(tid, (⟨(getShortestColumn s.1 : ℚ) *
        (ROW_WIDTH + TABLE_GUTTER_SIZE),
        s.1.getD (getShortestColumn s.1) 0⟩ : Coords))]).zip (dcfgs ++ [(tid, cfg)]) =
      s.2.zip dcfgs ++
        [((tid, ⟨(getShortestColumn s.1 : ℚ) * (ROW_WIDTH + TABLE_GUTTER_SIZE),
          s.1.getD (getShortestColumn s.1) 0⟩), (tid, cfg))] := by
    rw [List.zip_append hlen2]
    rfl
  have hA : (ROW_WIDTH + TABLE_GUTTER_SIZE : ℚ) ≠ 0 := by
    norm_num [ROW_WIDTH, TABLE_GUTTER_SIZE]
  refine ⟨?_, ?_, ?_, ?_, ?_, ?_, ?_⟩
  · simpa using inv.len
  · simp [inv.keys]
  · intro q hq
    rw [hzip] at hq
    rcases List.mem_append.mp hq with h2 | h2
    · exact inv.xform q h2
    · have hq2 : q = ((tid, ⟨(getShortestColumn s.1 : ℚ) *
          (ROW_WIDTH + TABLE_GUTTER_SIZE),
          s.1.getD (getShortestColumn s.1) 0⟩), (tid, cfg)) := by
        simpa using h2
      rw [hq2]
      exact ⟨getShortestColumn s.1, hj0, rfl⟩
  · intro c hc
    rw [hzip, columnLoad_append_single]
    dsimp only
    by_cases hcj : c = getShortestColumn s.1
    · subst hcj
      rw [getD_set_self _ _ _ (by rw [inv.len]; exact hc)]
      rw [if_pos rfl, inv.load _ hc]
    · have hxne : ((getShortestColumn s.1 : ℚ) * (ROW_WIDTH + TABLE_GUTTER_SIZE)) ≠
          (c : ℚ) * (ROW_WIDTH + TABLE_GUTTER_SIZE) := by
        intro e
        exact hcj (by exact_mod_cast (mul_right_cancel₀ hA e).symm)
      rw [getD_set_ne _ _ _ _ (fun e => hcj e.symm), if_neg hxne,
        inv.load c hc, add_zero]
  · intro c hc hcmin
    by_cases hcj : c = getShortestColumn s.1
    · subst hcj
      rw [getD_set_self _ _ _ (by rw [inv.len]; exact hc)]
      have h1 : 0 ≤ s.1.getD (getShortestColumn s.1) 0 := by
        rw [inv.load _ hj0]
        exact columnLoad_nonneg _ _
      have h2 := tableHeightContribution_pos cfg
      linarith
    · rw [getD_set_ne _ _ _ _ (fun e => hcj e.symm)]
      apply inv.fillPos c hc
      rcases Nat.lt_or_ge dcfgs.length k with hm | hm
      · -- the chosen column is exactly dcfgs.length
        have hj0eq := hfz hm
        simp only [List.length_append, List.length_singleton] at hcmin
        have hcle : c < dcfgs.length + 1 := lt_of_lt_of_le hcmin (min_le_left _ _)
        have hcne : c ≠ dcfgs.length := fun e => hcj (e.trans hj0eq.symm)
        exact lt_min (by omega) hc
      · rw [min_eq_right hm]
        exact hc
  · intro c hc hge
    by_cases hcj : c = getShortestColumn s.1
    · exfalso
      subst hcj
      simp only [List.length_append, List.length_singleton] at hge
      rcases Nat.lt_or_ge dcfgs.length k with hm | hm
      · rw [hfz hm] at hge
        have : min (dcfgs.length + 1) k = dcfgs.length + 1 ∨
            min (dcfgs.length + 1) k = k := by
          rcases le_total (dcfgs.length + 1) k with h | h
          · exact Or.inl (min_eq_left h)
          · exact Or.inr (min_eq_right h)
        rcases this with h | h <;> omega
      · rw [min_eq_right (by omega)] at hge
        omega
    · rw [getD_set_ne _ _ _ _ (fun e => hcj e.symm)]
      apply inv.fillZero c hc
      simp only [List.length_append, List.length_singleton] at hge
      calc min dcfgs.length k ≤ min (dcfgs.length + 1) k := by
            exact min_le_min (Nat.le_succ _) (le_refl _)
        _ ≤ c := hge
  · dsimp only
    exact yload_of_eq hzip.symm (yload_append _ _ inv.yload
      (by dsimp only; exact inv.load _ hj0))

theorem layoutInv_init (k : ℕ) : LayoutInv k [] (List.replicate k 0, []) := by
  refine ⟨by simp, rfl, ?_, ?_, ?_, ?_, ?_⟩
  · intro q hq
    simp at hq
  · intro c hc
    rw [getD_replicate]
    rfl
  · intro c hc hlt
    simp at hlt
  · intro c hc hge
    exact getD_replicate k c
  · intro i hi
    simp at hi

theorem foldl_placeTableStep_invariant (k : ℕ) (hk : 0 < k)
    (rest : List (String × TableConfig)) :
    ∀ (dcfgs : List (String × TableConfig)) (s : List ℚ × Obj Coords),
    ((dcfgs ++ rest).map Prod.fst).Nodup →
    LayoutInv k dcfgs s →
    LayoutInv k (dcfgs ++ rest) (rest.foldl placeTableStep s) := by
  induction rest with
  | nil =>
      intro dcfgs s hnd inv
      simpa using inv
  | cons p t ih =>
      obtain ⟨tid, cfg⟩ := p
      intro dcfgs s hnd inv
      have hfresh : tid ∉ dcfgs.map Prod.fst := by
        intro hmem
        rw [List.map_append, List.nodup_append] at hnd
        exact hnd.2.2 hmem (by simp)
      have step := placeTableStep_invariant k hk dcfgs s tid cfg hfresh inv
      have hnd2 : (((dcfgs ++ [(tid, cfg)]) ++ t).map Prod.fst).Nodup := by
        rw [List.append_assoc]
        simpa using hnd
      have ihres := ih (dcfgs ++ [(tid, cfg)]) (placeTableStep s (tid, cfg)) hnd2 step
      rw [show dcfgs ++ (tid, cfg) :: t = (dcfgs ++ [(tid, cfg)]) ++ t by simp]
      simpa using ihres

/-- C6: for a non-empty config map with distinct table ids, the initial
layout places every table at a column position `j * (ROW_WIDTH +
TABLE_GUTTER_SIZE)` with `j < ceil(sqrt(N))`, every one of those
`ceil(sqrt(N))` columns receives at least one table, each table's y is
exactly the height its column had accumulated before it was placed, and the
column counts at N = 1, 2, 3, 4, 5, 9, 10 are 1, 2, 2, 2, 3, 3, 4. -/
theorem getInitialTableCoords_spec (tableConfigsByTableId : Obj TableConfig)
    (hne : tableConfigsByTableId ≠ [])
    (hnd : (tableConfigsByTableId.map Prod.fst).Nodup) :
    (getInitialTableCoords tableConfigsByTableId).map Prod.fst =
      tableConfigsByTableId.map Prod.fst ∧
    (∀ q ∈ (getInitialTableCoords tableConfigsByTableId).zip tableConfigsByTableId,
      ∃ j, j < ceilSqrt tableConfigsByTableId.length ∧
        q.1.2.x = (j : ℚ) * (ROW_WIDTH + TABLE_GUTTER_SIZE)) ∧
    (∀ j, j < ceilSqrt tableConfigsByTableId.length →
      ∃ q ∈ (getInitialTableCoords tableConfigsByTableId).zip tableConfigsByTableId,
        q.1.2.x = (j : ℚ) * (ROW_WIDTH + TABLE_GUTTER_SIZE)) ∧
    (∀ i, (hi : i < ((getInitialTableCoords tableConfigsByTableId).zip
        tableConfigsByTableId).length) →
      (((getInitialTableCoords tableConfigsByTableId).zip
        tableConfigsByTableId).get ⟨i, hi⟩).1.2.y =
        columnLoad (((getInitialTableCoords tableConfigsByTableId).zip
          tableConfigsByTableId).take i)
          ((((getInitialTableCoords tableConfigsByTableId).zip
            tableConfigsByTableId).get ⟨i, hi⟩).1.2.x)) ∧
    (ceilSqrt 1 = 1 ∧ ceilSqrt 2 = 2 ∧ ceilSqrt 3 = 2 ∧ ceilSqrt 4 = 2 ∧
      ceilSqrt 5 = 3 ∧ ceilSqrt 9 = 3 ∧ ceilSqrt 10 = 4) := by
  have hpos : 0 < tableConfigsByTableId.length := List.length_pos.mpr hne
  have hk := ceilSqrt_pos hpos
  have hinv := foldl_placeTableStep_invariant
    (ceilSqrt tableConfigsByTableId.length) hk tableConfigsByTableId []
    (List.replicate (ceilSqrt tableConfigsByTableId.length) 0, [])
    (by simpa using hnd) (layoutInv_init _)
  simp only [List.nil_append] at hinv
  refine ⟨hinv.keys, hinv.xform, ?_, hinv.yload, by norm_num [ceilSqrt]⟩
  intro j hj
  have hN : ceilSqrt tableConfigsByTableId.length ≤ tableConfigsByTableId.length :=
    ceilSqrt_le_self _
  have hpos2 := hinv.fillPos j hj (by rw [min_eq_right hN]; exact hj)
  rw [hinv.load j hj] at hpos2
  obtain ⟨q, hq, hqx⟩ := columnLoad_pos_exists _ _ hpos2
  exact ⟨q, hq, hqx⟩

/-- C6 witness: a concrete three-table config map satisfies the hypotheses,
and the layout assigns a coordinate to exactly those tables in order. -/
theorem getInitialTableCoords_spec_witness :
    exCfgs3 ≠ [] ∧ (exCfgs3.map Prod.fst).Nodup ∧
    (getInitialTableCoords exCfgs3).map Prod.fst = exCfgs3.map Prod.fst :=
  ⟨by decide, by decide,
    (getInitialTableCoords_spec exCfgs3 (by decide) (by decide)).1⟩

/-- C10: the defensive target-existence filter is applied only to the link
set, not to the reverse index.  In `exDanglingBase` the only link targets
table `tbl2` and field `fldB`, which do not exist: the returned link set is
empty, yet the reverse index still holds that link both under the source
field `fldA` and under the per-table aggregate entry `tbl1` built in the
second pass. -/
theorem parseSchema_reverseIndex_keeps_stale_links :
    (parseSchema exDanglingBase).linksById = [] ∧
    objGet (parseSchema exDanglingBase).dependentLinksByNodeId "fldA" = some [exLinkAB] ∧
    objGet (parseSchema exDanglingBase).dependentLinksByNodeId "tbl1" = some [exLinkAB] := by
  decide

end BaseSchema
